import Mathlib

/-!
Verification development for the transform compiler of the
galois-bootstrapping repository (src/seal/seal/transform.h).

The repository ships only the header: the template `compile_slot_basis`
is implemented inline there, while the other members
(`NegacyclicPowerTable`, `compile_frobenius`, `add_scaled_transform`,
`fix_coefficient_shift`, `automorphism`, serialization, the plaintext
evaluator) and the external `SlotRing` collaborator are declared but
their implementations are not part of the sources.  Those parts are
modelled from the specification (spec.md) and from the doc comments in
transform.h; each such definition carries a doc comment starting with
`Modelled from the spec:`.

The ring is R = (Z/p^e Z)[X]/(X^N + 1) (negacyclic).  A polynomial value
is a coefficient vector of length N over Z/p^e Z, exactly as the spec's
data model prescribes.
-/

/-- The polynomial value type: coefficient vector of length `N` over
`Z/q Z` (with `q = p^e`).  Mirrors `poly` from polyarith.h as described
by the spec's data model. -/
abbrev poly (q N : ℕ) := Fin N → ZMod q

/-- The negacyclic monomial `X^a` reduced by the rule `X^N = -1`:
reduce `a mod 2N`; if the reduced exponent is `≥ N` the monomial picks
up a sign flip. -/
def monoNC (q N : ℕ) (a : ℕ) : poly q N :=
  fun k => if (a % (2 * N)) % N = k.val then (if a % (2 * N) < N then 1 else -1) else 0

/-- Negacyclic polynomial multiplication in `(Z/qZ)[X]/(X^N + 1)`:
convolution of the coefficient vectors, reduced through `monoNC`. -/
def polyMul (q N : ℕ) (f g : poly q N) : poly q N :=
  ∑ i : Fin N, ∑ j : Fin N, (f i * g j) • monoNC q N (i.val + j.val)

/-- The Galois automorphism `X ↦ X^t` applied to a polynomial value
(for `t` coprime to `2N` this is the automorphism `σ_t` of the ring). -/
def galoisAct (q N : ℕ) (t : ℕ) (f : poly q N) : poly q N :=
  ∑ j : Fin N, f j • monoNC q N (t * j.val)

/-- The ring descriptor consumed by the transform compiler.  Per the spec's
data model it is external, immutable state: dimension parameters, slot rank,
slot-group length and the automorphism-group generators `g1`, `g2` together
with the subgroup order and stride used for indexing. -/
structure SlotRingDesc where
  p : ℕ
  e : ℕ
  d : ℕ
  len : ℕ
  g1 : ℕ
  g2 : ℕ
  ordg1 : ℕ
  m : ℕ
deriving DecidableEq

/-- Modelled from the spec: `CompiledLinearTransform::automorphism` (only
declared in transform.h, lines 80-91).  The i-th automorphism is
`X ↦ X^(g1^(m i))` if `m i < ord(g1)` and `X ↦ X^(g1^(m i) g2)` otherwise,
represented by its Galois element modulo `2N`. -/
def automorphism (N : ℕ) (R : SlotRingDesc) (i : ℕ) : ℕ :=
  if R.m * i < R.ordg1 then R.g1 ^ (R.m * i) % (2 * N)
  else R.g1 ^ (R.m * i) * R.g2 % (2 * N)

/-- Multiplicative inverse of `t` modulo `n`, found by search (0 if none). -/
def inverseModExp (n t : ℕ) : ℕ :=
  ((List.range n).find? (fun u => u * t % n == 1)).getD 0

/-- Modelled from the spec: `CompiledLinearTransform::reverse_automorphism`
(declared only) — the inverse of the i-th automorphism, as a Galois element. -/
def reverse_automorphism (N : ℕ) (R : SlotRingDesc) (i : ℕ) : ℕ :=
  inverseModExp (2 * N) (automorphism N R i)

/-- Modelled from the spec: `CompiledLinearTransform::difference_automorphism`
(declared only) — `σ_from⁻¹ ∘ σ_to`, as a Galois element. -/
def difference_automorphism (N : ℕ) (R : SlotRingDesc) (a b : ℕ) : ℕ :=
  reverse_automorphism N R a * automorphism N R b % (2 * N)

/-- The compiled transform: a shared ring descriptor reference plus one
coefficient polynomial per baby-step automorphism index (transform.h line 70),
together with the compile-time record of whether the `g2` toggle was
included (the "optionally doubled" choice of the spec's data model). -/
structure CompiledLinearTransform (q N : ℕ) where
  g2_included : Bool
  coefficients : List (poly q N)

/-- Modelled from the spec: `babystep_automorphism_count` (declared only,
transform.h line 113).  The spec's data model: one coefficient per index
`i ∈ [0,K)` where `K` is the size of the chosen subgroup of the
`g1`-generated group (`ord(g1)/m`), optionally doubled if the `g2` toggle
is included. -/
def babystep_automorphism_count (R : SlotRingDesc) {q N : ℕ}
    (T : CompiledLinearTransform q N) : ℕ :=
  if T.g2_included then 2 * (R.ordg1 / R.m) else R.ordg1 / R.m

/-- Modelled from the spec: `giantstep_automorphism_count` (declared only).
The giant steps stride over the coefficient list in blocks of `d`. -/
def giantstep_automorphism_count (R : SlotRingDesc) {q N : ℕ}
    (T : CompiledLinearTransform q N) : ℕ :=
  T.coefficients.length / R.d

/-- Modelled from the spec: `add_scaled_transform` (transform.h lines 107-111,
declared only): accumulates the term `x ↦ rot(frob(x)) · scaling` by adding
`scaling` onto the coefficient at the automorphism index identified by the
rotation/Frobenius pair (their composite Galois element `rot·frob mod 2N`;
if that element is not among the stored indices, its identification modulo
the `g2` coset — the subring identification used when the `g2` automorphisms
are not materialised — is used). -/
def add_scaled_transform (q N : ℕ) (R : SlotRingDesc) (T : CompiledLinearTransform q N)
    (scaling : poly q N) (rot frob : ℕ) : CompiledLinearTransform q N :=
  match (List.range T.coefficients.length).find?
      (fun k => automorphism N R k == rot * frob % (2 * N)) with
  | some k => ⟨T.g2_included, T.coefficients.set k (T.coefficients.getD k 0 + scaling)⟩
  | none =>
    match (List.range T.coefficients.length).find?
        (fun k => automorphism N R k == rot * frob * R.g2 % (2 * N)) with
    | some k => ⟨T.g2_included, T.coefficients.set k (T.coefficients.getD k 0 + scaling)⟩
    | none => ⟨T.g2_included, T.coefficients⟩

/-- Modelled from the spec: `fix_coefficient_shift` (transform.h lines
116-125, declared only): applies `σ_{j(k)}⁻¹` to every stored coefficient,
where `j(k) = ⌊k/d⌋` is the giant-step index associated with position `k`
and the giant-step automorphism is `σ_{j(k)·d}`. -/
def fix_coefficient_shift (q N : ℕ) (R : SlotRingDesc)
    (T : CompiledLinearTransform q N) : CompiledLinearTransform q N :=
  ⟨T.g2_included, (List.range T.coefficients.length).map
    (fun k => galoisAct q N (reverse_automorphism N R (k / R.d * R.d)) (T.coefficients.getD k 0))⟩

/-- Modelled from the spec: the plaintext reference evaluator
(`CompiledSubringLinearTransform::operator()`, spec section 4.4), computing
the BSGS formula of transform.h lines 116-123:
`x ↦ Σ_j σ_{j·d}( Σ_i c_{j·d+i} · σ_i(x) )`. -/
def evaluate (q N : ℕ) (R : SlotRingDesc) (T : CompiledLinearTransform q N)
    (x : poly q N) : poly q N :=
  ∑ j ∈ Finset.range (T.coefficients.length / R.d),
    galoisAct q N (automorphism N R (j * R.d))
      (∑ i ∈ Finset.range R.d,
        polyMul q N (T.coefficients.getD (j * R.d + i) 0)
          (galoisAct q N (automorphism N R i) x))

/-- Iterated negacyclic power: `f^k` with `f^0 = X^0 = 1`, built by repeated
multiplication (the construction cost model of spec section 4.1). -/
def polyPow (q N : ℕ) (f : poly q N) : ℕ → poly q N
  | 0 => monoNC q N 0
  | k + 1 => polyMul q N (polyPow q N f k) f

/-- The power table of spec section 4.1: borrows the ring view, owns a
generator and the cached sequence of its powers indexed `0..halfOrder-1`. -/
structure NegacyclicPowerTable (q N : ℕ) where
  generator : poly q N
  halfOrder : ℕ
  content : List (poly q N)

/-- Modelled from the spec: the NegacyclicPowerTable constructor
(transform.h line 40, declared only): precompute all powers
`generator^0 .. generator^(halfOrder-1)`. -/
def NegacyclicPowerTable.build (q N : ℕ) (generator : poly q N) (halfOrder : ℕ) :
    NegacyclicPowerTable q N :=
  ⟨generator, halfOrder, (List.range halfOrder).map (fun k => polyPow q N generator k)⟩

/-- Modelled from the spec: NegacyclicPowerTable lookup (transform.h line 45,
declared only): reduce the integer exponent modulo `2·halfOrder`; if the
reduced exponent is `≥ halfOrder`, return the negation of the cached power at
(exponent − halfOrder); else return the cached power directly. -/
def NegacyclicPowerTable.get (q N : ℕ) (P : NegacyclicPowerTable q N) (i : ℤ) : poly q N :=
  let r := (i % (2 * (P.halfOrder : ℤ))).toNat
  if P.halfOrder ≤ r then - P.content.getD (r - P.halfOrder) 0
  else P.content.getD r 0

/-- Modelled from the spec: `compile_frobenius` (transform.h lines 127-141,
declared only in the sources).  Input: the sparse block entries
`((row, col) ↦ value)`; the subring view is modelled by the data the missing
implementation derives from it: the power basis `zpow` (served by the
NegacyclicPowerTable) and the trace-dual basis `dual` of the slot's power
basis.  Output: the `d` coefficients `c_l = Σ_entries v · ζ^row · π^l(δ_col)`
so that the block acts as `x ↦ Σ_l c_l π^l(x)` with `π` the `p`-power
Frobenius; absent entries contribute zero. -/
def compile_frobenius (q N p d : ℕ) (entries : List ((ℕ × ℕ) × ℕ))
    (zpow : ℕ → poly q N) (dual : ℕ → poly q N) : List (poly q N) :=
  (List.range d).map (fun l =>
    (entries.map (fun ent =>
      (ent.2 : ZMod q) • polyMul q N (zpow ent.1.1)
        (galoisAct q N (p ^ l) (dual ent.1.2)))).sum)

/-- Modelled from the spec: the pieces of the external SlotRing collaborator
that compile_slot_basis consumes (spec section 6): the ring descriptor, the
slot generator `from_slot_value({0,1},0)` powering the NegacyclicPowerTable,
and the slot-view data used by compile_frobenius (the trace-dual basis of
the slot's power basis, derived inside the missing slots.h/transform.cpp). -/
structure SlotRingModel (q N : ℕ) where
  desc : SlotRingDesc
  slotGen : poly q N
  dual : ℕ → poly q N

/-- The body of the innermost loop of compile_slot_basis (the per-`l`
accumulation, transform.h lines 272-287): rotate the l-th Frobenius
coefficient by the block offset `j` and accumulate it at rotation `s` and
Frobenius power `l`; when `use_g2 = false` the lane-switched copy is
accumulated a second time. -/
def slot_basis_inner (q N : ℕ) (R : SlotRingDesc) (use_g2 : Bool)
    (rotations : List ℕ) (lane_switch : ℕ) (frobenius_form : List (poly q N))
    (s j : ℕ) (acc : CompiledLinearTransform q N) (l : ℕ) :
    CompiledLinearTransform q N :=
  let coeff := galoisAct q N (rotations.getD j 1) (frobenius_form.getD l 0)
  let acc4 := add_scaled_transform q N R acc coeff (rotations.getD s 1) (R.p ^ l)
  if use_g2 then acc4
  else add_scaled_transform q N R acc4 (galoisAct q N lane_switch coeff)
    (rotations.getD s 1) (R.p ^ l)

/-- One (s, j) iteration of compile_slot_basis (transform.h lines 257-288):
query the callback at block (j, (j + bs - s) mod bs), skip it entirely when
the sparse map is left empty, otherwise run compile_frobenius and accumulate
its `d` coefficients. -/
def slot_basis_block (q N : ℕ) (M : SlotRingModel q N) (use_g2 : Bool)
    (block_size : ℕ) (rotations : List ℕ) (lane_switch : ℕ)
    (cb : ℕ → ℕ → List ((ℕ × ℕ) × ℕ)) (s : ℕ)
    (acc : CompiledLinearTransform q N) (j : ℕ) : CompiledLinearTransform q N :=
  let entries := cb j ((j + block_size - s) % block_size)
  if entries = [] then acc
  else
    let frobenius_form := compile_frobenius q N M.desc.p M.desc.d entries
      (fun r => NegacyclicPowerTable.get q N
        (NegacyclicPowerTable.build q N M.slotGen N) (r : ℤ))
      M.dual
    (List.range M.desc.d).foldl
      (slot_basis_inner q N M.desc use_g2 rotations lane_switch frobenius_form s j) acc

/-- transform.h lines 229-292 (source): the inline template
`compile_slot_basis`, translated loop for loop.  `block_rotate(i, bs)` and
`rotate(bs)` of the missing slots.h are modelled by their Galois elements
`g1^i mod 2N` resp. `g1^bs mod 2N`; `frobenius(l)` by `p^l`; the
NegacyclicPowerTable built from `from_slot_value({0,1},0)` serves the
ζ-powers consumed by compile_frobenius. -/
def compile_slot_basis (q N : ℕ) (M : SlotRingModel q N)
    (cb : ℕ → ℕ → List ((ℕ × ℕ) × ℕ)) (use_g2 : Bool) :
    CompiledLinearTransform q N :=
  let R := M.desc
  let block_size := if use_g2 then R.len else R.len / 2
  let rotations : List ℕ := (List.range block_size).map (fun i => R.g1 ^ i % (2 * N))
  let lane_switch : ℕ := R.g1 ^ block_size % (2 * N)
  fix_coefficient_shift q N R
    ((List.range block_size).foldl (fun acc s =>
      (List.range block_size).foldl
        (slot_basis_block q N M use_g2 block_size rotations lane_switch cb s) acc)
      ⟨use_g2, List.replicate (block_size * R.d) (0 : poly q N)⟩)

/-- The observable collaborator calls made by compile_slot_basis, tagged by
the loop indices that issue them. -/
inductive CompileEvent where
  | callFrobenius (s j : ℕ)
  | callAddScaled (s j l : ℕ) (laneSwitch : Bool)
  | callFixShift
deriving DecidableEq

/-- The call protocol of compile_slot_basis (transform.h lines 229-292),
loop for loop: an empty sparse block is skipped before any call; each
surviving block triggers one `compile_frobenius` call and, per Frobenius
power `l`, one `add_scaled_transform` call (plus the lane-switch duplicate
when `use_g2 = false`); a single `fix_coefficient_shift` call ends the run. -/
def compile_slot_basis_events (len d : ℕ) (use_g2 : Bool)
    (cb : ℕ → ℕ → List ((ℕ × ℕ) × ℕ)) : List CompileEvent :=
  ((List.range (if use_g2 then len else len / 2)).flatMap (fun s =>
    (List.range (if use_g2 then len else len / 2)).flatMap (fun j =>
      if cb j ((j + (if use_g2 then len else len / 2) - s) %
          (if use_g2 then len else len / 2)) = [] then []
      else CompileEvent.callFrobenius s j ::
        (List.range d).flatMap (fun l =>
          CompileEvent.callAddScaled s j l false ::
            (if use_g2 then [] else [CompileEvent.callAddScaled s j l true]))))) ++
  [CompileEvent.callFixShift]

/-- Modelled from the spec: `save_binary` (transform.h line 171, declared
only; format in spec section 6): sequential encoding of the coefficient
count followed by each coefficient polynomial's raw representation (its N
residues), no versioning or checksum. -/
def save_binary (q N : ℕ) (T : CompiledLinearTransform q N) : List ℕ :=
  T.coefficients.length ::
    T.coefficients.flatMap (fun c => List.ofFn (fun k : Fin N => (c k).val))

/-- One raw coefficient polynomial read from the stream; a truncated stream
fails outright. -/
def readPoly (q N : ℕ) (s : List ℕ) : Option (poly q N × List ℕ) :=
  if N ≤ s.length then
    some ((fun k => ((s.getD k.val 0 : ℕ) : ZMod q)), s.drop N)
  else none

/-- Reads `n` raw coefficient polynomials from the stream. -/
def readPolys (q N : ℕ) : ℕ → List ℕ → Option (List (poly q N) × List ℕ)
  | 0, s => some ([], s)
  | n + 1, s =>
    match readPoly q N s with
    | none => none
    | some (c, rest) =>
      match readPolys q N n rest with
      | none => none
      | some (cs, rest2) => some (c :: cs, rest2)

/-- Modelled from the spec: `load_binary` (transform.h line 170, declared
only): read the coefficient count, then that many raw coefficient
polynomials; a truncated or malformed stream fails the load outright.  The
ring descriptor is caller-supplied and must match the stream. -/
def load_binary (q N : ℕ) (R : SlotRingDesc) (stream : List ℕ) :
    Option (CompiledLinearTransform q N) :=
  match stream with
  | [] => none
  | cnt :: rest =>
    match readPolys q N cnt rest with
    | none => none
    | some (cs, _) => some ⟨cnt == R.len * R.d, cs⟩

/-- The invariant carried by compile_slot_basis: coefficient count fixed at
block_size·d, and the compile-time g2 toggle recorded unchanged. -/
abbrev sbInv (q N : ℕ) (L : ℕ) (g : Bool) (T : CompiledLinearTransform q N) : Prop :=
  T.coefficients.length = L ∧ T.g2_included = g

/-- Concrete ring descriptor for witnesses: Z/7[X]/(X^8+1), N = 8, p = 7,
e = 1, slot rank d = 2 (the order of 7 mod 16), slot group length 4,
generators g1 = 3 (order 4 in (Z/16ZZ)*), g2 = 15, stride m = 1. -/
def concreteDesc : SlotRingDesc := ⟨7, 1, 2, 4, 3, 15, 4, 1⟩

/-- The slot-0 idempotent e₀ of Z/7[X]/(X^8+1) (orthogonality and
idempotency verified below). -/
def e0c : poly 7 8 := ![2, 1, 3, 4, 0, 4, 4, 1]

/-- ζ = X·e₀: the canonical primitive 16-th root of unity of slot 0; this is
the slot generator `from_slot_value({0,1},0)` fed to the power table. -/
def zetac : poly 7 8 := ![6, 2, 1, 3, 4, 0, 4, 4]

/-- Trace-dual basis of the slot-0 power basis {e₀, ζ} with respect to the
Frobenius trace of the slot (id + σ₇). -/
def dualc : ℕ → poly 7 8
  | 0 => ![1, 1, 2, 3, 5, 1, 6, 0]
  | 1 => ![0, 1, 1, 2, 3, 5, 1, 6]
  | _ => 0

/-- The concrete SlotRing collaborator model. -/
def concreteModel : SlotRingModel 7 8 := ⟨concreteDesc, zetac, dualc⟩

/-- The ζ-powers as served to compile_frobenius by the power table. -/
def czpow : ℕ → poly 7 8 :=
  fun r => NegacyclicPowerTable.get 7 8 (NegacyclicPowerTable.build 7 8 zetac 8) (r : ℤ)

def c1entries : List ((ℕ × ℕ) × ℕ) := [((0, 1), 3), ((1, 0), 2), ((1, 1), 5)]

def c5list : List (poly 7 8) := List.replicate 8 (monoNC 7 8 1)

def c8transform : CompiledLinearTransform 7 2 := ⟨true, [monoNC 7 2 1]⟩

def c10cb : ℕ → ℕ → List ((ℕ × ℕ) × ℕ) := fun _ _ => []

/-- The identity per-slot matrix callback of the spec's concrete scenario:
the 2×2 identity block on each diagonal block, empty off the diagonal. -/
def idCallback : ℕ → ℕ → List ((ℕ × ℕ) × ℕ) := fun r c =>
  if r = c then [((0, 0), 1), ((1, 1), 1)] else []

/-- The transform compiled from the identity callback, computed in closed
form: coefficient 1 at automorphism index 0 (the identity automorphism),
zero elsewhere. -/
def idCompiled : CompiledLinearTransform 7 8 :=
  ⟨true, [monoNC 7 8 0, 0, 0, 0, 0, 0, 0, 0]⟩

/-- The rotation Galois elements `g1^i mod 2N` used by the concrete
compilation. -/
def rotationsC : List ℕ := (List.range 4).map (fun i => 3 ^ i % 16)

/-- The flat list of (scaling, rotation, frobenius) accumulation calls
issued by compile_slot_basis (use_g2 = true) at the concrete ring, in
program order. -/
def slotBasisUpdates (cb : ℕ → ℕ → List ((ℕ × ℕ) × ℕ)) : List (poly 7 8 × ℕ × ℕ) :=
  (List.range 4).flatMap (fun s =>
    (List.range 4).flatMap (fun j =>
      if cb j ((j + 4 - s) % 4) = [] then []
      else (List.range 2).map (fun l =>
        (galoisAct 7 8 (rotationsC.getD j 1)
          ((compile_frobenius 7 8 7 2 (cb j ((j + 4 - s) % 4)) czpow dualc).getD l 0),
         rotationsC.getD s 1, 7 ^ l))))

/-- Replay a list of accumulation calls through add_scaled_transform. -/
def applyUpdates (upds : List (poly 7 8 × ℕ × ℕ)) (T : CompiledLinearTransform 7 8) :
    CompiledLinearTransform 7 8 :=
  upds.foldl (fun acc u => add_scaled_transform 7 8 concreteDesc acc u.1 u.2.1 u.2.2) T

/-- The directly-indexed semantics `x ↦ Σ_k c_k σ_k(x)` of a coefficient
list over the concrete descriptor. -/
def directSum (a : List (poly 7 8)) (x : poly 7 8) : poly 7 8 :=
  ∑ k ∈ Finset.range a.length,
    polyMul 7 8 (a.getD k 0) (galoisAct 7 8 (automorphism 8 concreteDesc k) x)

/-- Closed-form table of the per-entry Frobenius coefficients
`ζ^row · π^l(δ_col)` produced by compile_frobenius at the concrete ring;
verified against the defining expression in `cfTab_spec`. -/
def cfTab : ℕ → ℕ → ℕ → poly 7 8
  | 0, 0, 0 => ![1, 1, 2, 3, 5, 1, 6, 0]
  | 0, 0, 1 => ![1, 0, 1, 1, 2, 3, 5, 1]
  | 0, 1, 0 => ![0, 1, 1, 2, 3, 5, 1, 6]
  | 0, 1, 1 => ![0, 6, 6, 5, 4, 2, 6, 1]
  | 1, 0, 0 => ![0, 1, 1, 2, 3, 5, 1, 6]
  | 1, 0, 1 => ![6, 1, 0, 1, 1, 2, 3, 5]
  | 1, 1, 0 => ![1, 0, 1, 1, 2, 3, 5, 1]
  | 1, 1, 1 => ![6, 0, 6, 6, 5, 4, 2, 6]
  | _, _, _ => 0

/-- Closed-form table of the rotated per-entry coefficients
`σ_{g1^j}(ζ^row · π^l(δ_col))` stored by the accumulation loop; verified
against the defining expression in `rotCf_spec`. -/
def rotatedCf : ℕ → ℕ → ℕ → ℕ → poly 7 8
  | 0, 0, 0, 0 => ![1, 1, 2, 3, 5, 1, 6, 0]
  | 0, 0, 0, 1 => ![1, 0, 1, 1, 2, 3, 5, 1]
  | 0, 0, 1, 0 => ![0, 1, 1, 2, 3, 5, 1, 6]
  | 0, 0, 1, 1 => ![0, 6, 6, 5, 4, 2, 6, 1]
  | 0, 1, 0, 0 => ![0, 1, 1, 2, 3, 5, 1, 6]
  | 0, 1, 0, 1 => ![6, 1, 0, 1, 1, 2, 3, 5]
  | 0, 1, 1, 0 => ![1, 0, 1, 1, 2, 3, 5, 1]
  | 0, 1, 1, 1 => ![6, 0, 6, 6, 5, 4, 2, 6]
  | 1, 0, 0, 0 => ![1, 4, 6, 1, 2, 0, 2, 6]
  | 1, 0, 0, 1 => ![1, 6, 5, 0, 5, 1, 1, 4]
  | 1, 0, 1, 0 => ![0, 5, 1, 1, 4, 6, 1, 2]
  | 1, 0, 1, 1 => ![0, 2, 6, 6, 3, 1, 6, 5]
  | 1, 1, 0, 0 => ![0, 5, 1, 1, 4, 6, 1, 2]
  | 1, 1, 0, 1 => ![6, 6, 3, 1, 6, 5, 0, 5]
  | 1, 1, 1, 0 => ![1, 6, 5, 0, 5, 1, 1, 4]
  | 1, 1, 1, 1 => ![6, 1, 2, 0, 2, 6, 6, 3]
  | 2, 0, 0, 0 => ![1, 6, 2, 4, 5, 6, 6, 0]
  | 2, 0, 0, 1 => ![1, 0, 1, 6, 2, 4, 5, 6]
  | 2, 0, 1, 0 => ![0, 6, 1, 5, 3, 2, 1, 1]
  | 2, 0, 1, 1 => ![0, 1, 6, 2, 4, 5, 6, 6]
  | 2, 1, 0, 0 => ![0, 6, 1, 5, 3, 2, 1, 1]
  | 2, 1, 0, 1 => ![6, 6, 0, 6, 1, 5, 3, 2]
  | 2, 1, 1, 0 => ![1, 0, 1, 6, 2, 4, 5, 6]
  | 2, 1, 1, 1 => ![6, 0, 6, 1, 5, 3, 2, 1]
  | 3, 0, 0, 0 => ![1, 3, 6, 6, 2, 0, 2, 1]
  | 3, 0, 0, 1 => ![1, 1, 5, 0, 5, 6, 1, 3]
  | 3, 0, 1, 0 => ![0, 2, 1, 6, 4, 1, 1, 5]
  | 3, 0, 1, 1 => ![0, 5, 6, 1, 3, 6, 6, 2]
  | 3, 1, 0, 0 => ![0, 2, 1, 6, 4, 1, 1, 5]
  | 3, 1, 0, 1 => ![6, 1, 3, 6, 6, 2, 0, 2]
  | 3, 1, 1, 0 => ![1, 1, 5, 0, 5, 6, 1, 3]
  | 3, 1, 1, 1 => ![6, 6, 2, 0, 2, 1, 6, 4]
  | _, _, _, _ => 0

/-- Following the spec's words for the reference side of the refinement:
the slot basis element `b_{i,t} = σ_{g1^i}(X^t · e₀)`, the image in slot
`i` of the power-basis element `ζ^t` of the first slot. -/
def slotBasisElt (i t : ℕ) : poly 7 8 :=
  galoisAct 7 8 (3 ^ i) (polyMul 7 8 (monoNC 7 8 t) e0c)

/-- Closed-form table of the slot basis elements `b_{i,t}`; verified
against `slotBasisElt` in `basisTab_spec`. -/
def basisTab : ℕ → ℕ → poly 7 8
  | 0, 0 => ![2, 1, 3, 4, 0, 4, 4, 1]
  | 0, 1 => ![6, 2, 1, 3, 4, 0, 4, 4]
  | 1, 0 => ![2, 3, 4, 1, 0, 1, 3, 3]
  | 1, 1 => ![6, 4, 4, 2, 3, 4, 1, 0]
  | 2, 0 => ![2, 6, 3, 3, 0, 3, 4, 6]
  | 2, 1 => ![6, 5, 1, 4, 4, 0, 4, 3]
  | 3, 0 => ![2, 4, 4, 6, 0, 6, 3, 4]
  | 3, 1 => ![6, 3, 4, 5, 3, 3, 1, 0]
  | _, _ => 0

/-- Closed-form table of the grouped Galois exponents
`g1^s · p^l mod 2N` carried by the accumulated (rotation, frobenius)
pairs; verified against the defining expression in `expTab_spec`. -/
def expTab : ℕ → ℕ → ℕ
  | 0, 0 => 1
  | 0, 1 => 7
  | 1, 0 => 3
  | 1, 1 => 5
  | 2, 0 => 9
  | 2, 1 => 15
  | 3, 0 => 11
  | 3, 1 => 13
  | _, _ => 0

/-- Following the spec's words for the reference side of the refinement:
the row of coordinate functionals dual to the slot basis (the rows of the
inverse of the basis matrix; `kappa_dual` checks the duality). -/
def kappaRow : ℕ → ℕ → poly 7 8
  | 0, 0 => ![1, 0, 1, 6, 2, 4, 5, 6]
  | 0, 1 => ![0, 1, 6, 2, 4, 5, 6, 6]
  | 1, 0 => ![1, 1, 5, 0, 5, 6, 1, 3]
  | 1, 1 => ![0, 5, 6, 1, 3, 6, 6, 2]
  | 2, 0 => ![1, 0, 1, 1, 2, 3, 5, 1]
  | 2, 1 => ![0, 6, 6, 5, 4, 2, 6, 1]
  | 3, 0 => ![1, 6, 5, 0, 5, 1, 1, 4]
  | 3, 1 => ![0, 2, 6, 6, 3, 1, 6, 5]
  | _, _ => 0

/-- The coordinate of `x` on the slot basis element `b_{c,t}`. -/
def kappa (c t : ℕ) (x : poly 7 8) : ZMod 7 :=
  ∑ k : Fin 8, kappaRow c t k * x k

/-- Following the spec's words: the direct dense-matrix action of the
per-slot matrices on `x`. Block `(i, c)` of the callback sends the
`(c, col)` coordinate of `x` to the basis element `b_{i, row}`, scaled by
the entry value. -/
def referenceAction (cb : ℕ → ℕ → List ((ℕ × ℕ) × ℕ)) (x : poly 7 8) : poly 7 8 :=
  ∑ i ∈ Finset.range 4, ∑ c ∈ Finset.range 4,
    ((cb i c).map (fun ent =>
      ((ent.2 : ZMod 7) * kappa c ent.1.2 x) • slotBasisElt i ent.1.1)).sum

/-- A callback whose only nonzero block sits at block row 3, block
column 0: a rotation by three slots of the first slot's contents. -/
def cb30 : ℕ → ℕ → List ((ℕ × ℕ) × ℕ) := fun r c =>
  if r = 3 ∧ c = 0 then [((0, 0), 1)] else []

theorem monoNC_apply (q N a : ℕ) (k : Fin N) :
    monoNC q N a k =
      if (a % (2 * N)) % N = k.val then (if a % (2 * N) < N then (1 : ZMod q) else -1) else 0 :=
  rfl

theorem monoNC_congr (q N : ℕ) {a b : ℕ} (h : a % (2 * N) = b % (2 * N)) :
    monoNC q N a = monoNC q N b := by
  unfold monoNC
  rw [h]

theorem monoNC_add_two_mul (q N a c : ℕ) :
    monoNC q N (a + 2 * N * c) = monoNC q N a := by
  apply monoNC_congr
  simp [Nat.add_mul_mod_self_left]

theorem monoNC_add_N (q N : ℕ) (hN : 0 < N) (a : ℕ) :
    monoNC q N (a + N) = - monoNC q N a := by
  funext k
  have h2N : 0 < 2 * N := by omega
  have hlt : a % (2 * N) < 2 * N := Nat.mod_lt _ h2N
  have hNmod : N % (2 * N) = N := Nat.mod_eq_of_lt (by omega)
  have hstep : (a + N) % (2 * N) = (a % (2 * N) + N) % (2 * N) := by
    rw [Nat.add_mod, hNmod]
  by_cases hr : a % (2 * N) < N
  · have h1 : (a + N) % (2 * N) = a % (2 * N) + N := by
      rw [hstep]; exact Nat.mod_eq_of_lt (by omega)
    have h2 : (a % (2 * N) + N) % N = a % (2 * N) := by
      rw [Nat.add_mod_right]; exact Nat.mod_eq_of_lt hr
    have h3 : a % (2 * N) % N = a % (2 * N) := Nat.mod_eq_of_lt hr
    simp only [monoNC_apply, Pi.neg_apply]
    rw [h1, h2, h3, if_neg (by omega : ¬ (a % (2 * N) + N < N)), if_pos hr]
    by_cases hk : a % (2 * N) = k.val
    · rw [if_pos hk, if_pos hk]
    · rw [if_neg hk, if_neg hk]; ring
  · have hge : N ≤ a % (2 * N) := Nat.le_of_not_lt hr
    have h1 : (a + N) % (2 * N) = a % (2 * N) - N := by
      rw [hstep, Nat.mod_eq_sub_mod (by omega)]
      have he : a % (2 * N) + N - 2 * N = a % (2 * N) - N := by omega
      rw [he]
      exact Nat.mod_eq_of_lt (by omega)
    have h2 : (a % (2 * N) - N) % N = a % (2 * N) - N := Nat.mod_eq_of_lt (by omega)
    have h3 : a % (2 * N) % N = a % (2 * N) - N := by
      rw [Nat.mod_eq_sub_mod hge]
      exact Nat.mod_eq_of_lt (by omega)
    simp only [monoNC_apply, Pi.neg_apply]
    rw [h1, h2, h3, if_pos (by omega : a % (2 * N) - N < N), if_neg hr]
    by_cases hk : a % (2 * N) - N = k.val
    · rw [if_pos hk, if_pos hk]; ring
    · rw [if_neg hk, if_neg hk]; ring

/-- The sign/position decomposition underlying all monomial algebra: the
reduced representative of `X^a` times the wraparound sign recovers `X^(a+m)`
after any shift `m`. -/
theorem monoNC_shift (q N : ℕ) (hN : 0 < N) (a m : ℕ) :
    (if a % (2 * N) < N then (1 : ZMod q) else -1) • monoNC q N (a % (2 * N) % N + m) =
      monoNC q N (a + m) := by
  have hmod : (a % (2 * N) + m) % (2 * N) = (a + m) % (2 * N) :=
    Nat.ModEq.add_right m (Nat.mod_modEq a (2 * N))
  by_cases hr : a % (2 * N) < N
  · rw [if_pos hr, one_smul]
    have h3 : a % (2 * N) % N = a % (2 * N) := Nat.mod_eq_of_lt hr
    rw [h3]
    exact monoNC_congr q N hmod
  · rw [if_neg hr]
    have hge : N ≤ a % (2 * N) := Nat.le_of_not_lt hr
    have hlt : a % (2 * N) < 2 * N := Nat.mod_lt _ (by omega)
    have h3 : a % (2 * N) % N = a % (2 * N) - N := by
      rw [Nat.mod_eq_sub_mod hge]
      exact Nat.mod_eq_of_lt (by omega)
    have hsplit : a % (2 * N) % N + m + N = a % (2 * N) + m := by omega
    have : monoNC q N (a % (2 * N) % N + m + N) = monoNC q N (a + m) := by
      rw [hsplit]
      exact monoNC_congr q N hmod
    rw [← this, monoNC_add_N q N hN]
    simp

theorem galoisAct_add (q N t : ℕ) (f g : poly q N) :
    galoisAct q N t (f + g) = galoisAct q N t f + galoisAct q N t g := by
  unfold galoisAct
  rw [← Finset.sum_add_distrib]
  refine Finset.sum_congr rfl (fun j _ => ?_)
  simp [add_smul]

theorem galoisAct_zero (q N t : ℕ) : galoisAct q N t (0 : poly q N) = 0 := by
  simp [galoisAct]

theorem galoisAct_smul (q N t : ℕ) (c : ZMod q) (f : poly q N) :
    galoisAct q N t (c • f) = c • galoisAct q N t f := by
  unfold galoisAct
  rw [Finset.smul_sum]
  refine Finset.sum_congr rfl (fun j _ => ?_)
  simp [smul_smul]

theorem galoisAct_neg (q N t : ℕ) (f : poly q N) :
    galoisAct q N t (-f) = - galoisAct q N t f := by
  have h := galoisAct_add q N t f (-f)
  simp only [add_neg_cancel, galoisAct_zero] at h
  exact (neg_eq_of_add_eq_zero_right h.symm).symm

theorem galoisAct_sum (q N t : ℕ) {α : Type} (s : Finset α) (F : α → poly q N) :
    galoisAct q N t (∑ x ∈ s, F x) = ∑ x ∈ s, galoisAct q N t (F x) :=
  map_sum (AddMonoidHom.mk' (galoisAct q N t) (galoisAct_add q N t)) F s

/-- Collapse a sum against the single-support monomial `monoNC a`. -/
theorem monoNC_sum_collapse (q N : ℕ) (hN : 0 < N) (a : ℕ) (F : Fin N → poly q N) :
    ∑ i : Fin N, monoNC q N a i • F i =
      (if a % (2 * N) < N then (1 : ZMod q) else -1) • F ⟨a % (2 * N) % N, Nat.mod_lt _ hN⟩ := by
  rw [Finset.sum_eq_single_of_mem (⟨a % (2 * N) % N, Nat.mod_lt _ hN⟩ : Fin N)
    (Finset.mem_univ _)]
  · congr 1
    rw [monoNC_apply]
    simp
  · intro b _ hb
    have hval : a % (2 * N) % N ≠ b.val := by
      intro hcontra
      apply hb
      apply Fin.ext
      exact hcontra.symm
    rw [monoNC_apply, if_neg hval, zero_smul]

theorem polyMul_monoNC_left (q N : ℕ) (hN : 0 < N) (a : ℕ) (g : poly q N) :
    polyMul q N (monoNC q N a) g = ∑ j : Fin N, g j • monoNC q N (a + j.val) := by
  unfold polyMul
  have h1 : ∀ i : Fin N, ∑ j : Fin N, (monoNC q N a i * g j) • monoNC q N (i.val + j.val) =
      monoNC q N a i • ∑ j : Fin N, g j • monoNC q N (i.val + j.val) := by
    intro i
    rw [Finset.smul_sum]
    refine Finset.sum_congr rfl (fun j _ => ?_)
    rw [mul_smul]
  rw [Finset.sum_congr rfl (fun i _ => h1 i),
    monoNC_sum_collapse q N hN a (fun i => ∑ j : Fin N, g j • monoNC q N (i.val + j.val))]
  rw [Finset.smul_sum]
  refine Finset.sum_congr rfl (fun j _ => ?_)
  rw [smul_comm, monoNC_shift q N hN a j.val]

theorem polyMul_monoNC_right (q N : ℕ) (hN : 0 < N) (b : ℕ) (f : poly q N) :
    polyMul q N f (monoNC q N b) = ∑ i : Fin N, f i • monoNC q N (b + i.val) := by
  unfold polyMul
  refine Finset.sum_congr rfl (fun i _ => ?_)
  have h1 : ∀ j : Fin N, (f i * monoNC q N b j) • monoNC q N (i.val + j.val) =
      monoNC q N b j • (f i • monoNC q N (i.val + j.val)) := fun j => by
    rw [mul_comm, mul_smul]
  rw [Finset.sum_congr rfl (fun j _ => h1 j),
    monoNC_sum_collapse q N hN b (fun j => f i • monoNC q N (i.val + j.val)),
    smul_comm]
  show f i • ((if b % (2 * N) < N then (1 : ZMod q) else -1) •
      monoNC q N (i.val + b % (2 * N) % N)) = f i • monoNC q N (b + i.val)
  congr 1
  rw [show i.val + b % (2 * N) % N = b % (2 * N) % N + i.val from Nat.add_comm _ _]
  exact monoNC_shift q N hN b i.val

theorem polyMul_monoNC_monoNC (q N : ℕ) (hN : 0 < N) (a b : ℕ) :
    polyMul q N (monoNC q N a) (monoNC q N b) = monoNC q N (a + b) := by
  rw [polyMul_monoNC_left q N hN a (monoNC q N b),
    monoNC_sum_collapse q N hN b (fun j => monoNC q N (a + j.val))]
  show (if b % (2 * N) < N then (1 : ZMod q) else -1) •
      monoNC q N (a + b % (2 * N) % N) = monoNC q N (a + b)
  rw [show a + b % (2 * N) % N = b % (2 * N) % N + a from Nat.add_comm _ _,
    monoNC_shift q N hN b a]
  exact monoNC_congr q N (by rw [Nat.add_comm])

theorem galoisAct_monoNC (q N : ℕ) (hN : 0 < N) {t : ℕ} (ht : Odd t) (a : ℕ) :
    galoisAct q N t (monoNC q N a) = monoNC q N (t * a) := by
  unfold galoisAct
  rw [monoNC_sum_collapse q N hN a (fun j => monoNC q N (t * j.val))]
  have hmodeq : t * (a % (2 * N)) % (2 * N) = t * a % (2 * N) :=
    Nat.ModEq.mul_left t (Nat.mod_modEq a (2 * N))
  by_cases hr : a % (2 * N) < N
  · rw [if_pos hr, one_smul]
    show monoNC q N (t * (a % (2 * N) % N)) = monoNC q N (t * a)
    have h3 : a % (2 * N) % N = a % (2 * N) := Nat.mod_eq_of_lt hr
    rw [h3]
    exact monoNC_congr q N hmodeq
  · rw [if_neg hr]
    show (-1 : ZMod q) • monoNC q N (t * (a % (2 * N) % N)) = monoNC q N (t * a)
    have hge : N ≤ a % (2 * N) := Nat.le_of_not_lt hr
    have hlt : a % (2 * N) < 2 * N := Nat.mod_lt _ (by omega)
    have h3 : a % (2 * N) % N = a % (2 * N) - N := by
      rw [Nat.mod_eq_sub_mod hge]
      exact Nat.mod_eq_of_lt (by omega)
    obtain ⟨c, hc⟩ := ht
    have hsplit : t * (a % (2 * N)) = t * (a % (2 * N) % N) + N + 2 * N * c := by
      rw [h3]
      have : a % (2 * N) = (a % (2 * N) - N) + N := by omega
      calc t * (a % (2 * N)) = t * ((a % (2 * N) - N) + N) := by rw [← this]
        _ = t * (a % (2 * N) - N) + t * N := by ring
        _ = t * (a % (2 * N) - N) + N + 2 * N * c := by rw [hc]; ring
    have hchain : monoNC q N (t * (a % (2 * N))) = - monoNC q N (t * (a % (2 * N) % N)) := by
      rw [hsplit, show t * (a % (2 * N) % N) + N + 2 * N * c =
        (t * (a % (2 * N) % N) + N) + 2 * N * c from by ring,
        monoNC_add_two_mul, monoNC_add_N q N hN]
    have hgoal : monoNC q N (t * (a % (2 * N))) = monoNC q N (t * a) :=
      monoNC_congr q N hmodeq
    rw [← hgoal, hchain]
    simp

theorem sum_basis (q N : ℕ) (hN : 0 < N) (f : poly q N) :
    ∑ j : Fin N, f j • monoNC q N j.val = f := by
  funext k
  rw [Finset.sum_apply]
  rw [Finset.sum_eq_single_of_mem k (Finset.mem_univ _)]
  · have h1 : k.val % (2 * N) = k.val := Nat.mod_eq_of_lt (by omega)
    simp [monoNC_apply, h1, Nat.mod_eq_of_lt k.isLt, k.isLt]
  · intro b _ hb
    have h1 : b.val % (2 * N) = b.val := Nat.mod_eq_of_lt (by omega)
    have hbn : b.val % N = b.val := Nat.mod_eq_of_lt b.isLt
    have hne : b.val ≠ k.val := fun hcontra => hb (Fin.ext hcontra)
    simp [monoNC_apply, h1, hbn, hne]

theorem galoisAct_one_exp (q N : ℕ) (hN : 0 < N) (f : poly q N) :
    galoisAct q N 1 f = f := by
  unfold galoisAct
  rw [Finset.sum_congr rfl (fun j _ => by rw [one_mul])]
  exact sum_basis q N hN f

theorem galoisAct_congr_mod (q N : ℕ) {t u : ℕ} (h : t % (2 * N) = u % (2 * N))
    (f : poly q N) : galoisAct q N t f = galoisAct q N u f := by
  unfold galoisAct
  refine Finset.sum_congr rfl (fun j _ => ?_)
  congr 1
  exact monoNC_congr q N (Nat.ModEq.mul_right j.val h)

theorem galoisAct_comp (q N : ℕ) (hN : 0 < N) {t : ℕ} (ht : Odd t) (u : ℕ) (f : poly q N) :
    galoisAct q N t (galoisAct q N u f) = galoisAct q N (t * u) f := by
  have hx : galoisAct q N u f = ∑ j : Fin N, f j • monoNC q N (u * j.val) := rfl
  rw [hx, galoisAct_sum]
  show _ = ∑ j : Fin N, f j • monoNC q N ((t * u) * j.val)
  refine Finset.sum_congr rfl (fun j _ => ?_)
  rw [galoisAct_smul, galoisAct_monoNC q N hN ht, mul_assoc]

theorem polyMul_add_left (q N : ℕ) (f f' g : poly q N) :
    polyMul q N (f + f') g = polyMul q N f g + polyMul q N f' g := by
  unfold polyMul
  rw [← Finset.sum_add_distrib]
  refine Finset.sum_congr rfl (fun i _ => ?_)
  rw [← Finset.sum_add_distrib]
  refine Finset.sum_congr rfl (fun j _ => ?_)
  rw [Pi.add_apply, add_mul, add_smul]

theorem polyMul_add_right (q N : ℕ) (f g g' : poly q N) :
    polyMul q N f (g + g') = polyMul q N f g + polyMul q N f g' := by
  unfold polyMul
  rw [← Finset.sum_add_distrib]
  refine Finset.sum_congr rfl (fun i _ => ?_)
  rw [← Finset.sum_add_distrib]
  refine Finset.sum_congr rfl (fun j _ => ?_)
  rw [Pi.add_apply, mul_add, add_smul]

theorem polyMul_smul_left (q N : ℕ) (c : ZMod q) (f g : poly q N) :
    polyMul q N (c • f) g = c • polyMul q N f g := by
  unfold polyMul
  rw [Finset.smul_sum]
  refine Finset.sum_congr rfl (fun i _ => ?_)
  rw [Finset.smul_sum]
  refine Finset.sum_congr rfl (fun j _ => ?_)
  rw [Pi.smul_apply, smul_eq_mul, mul_assoc, mul_smul]

theorem polyMul_smul_right (q N : ℕ) (c : ZMod q) (f g : poly q N) :
    polyMul q N f (c • g) = c • polyMul q N f g := by
  unfold polyMul
  rw [Finset.smul_sum]
  refine Finset.sum_congr rfl (fun i _ => ?_)
  rw [Finset.smul_sum]
  refine Finset.sum_congr rfl (fun j _ => ?_)
  rw [Pi.smul_apply, smul_eq_mul, mul_comm c (g j), ← mul_assoc, mul_smul, smul_comm]

theorem polyMul_zero_left (q N : ℕ) (g : poly q N) : polyMul q N 0 g = 0 := by
  simp [polyMul]

theorem polyMul_zero_right (q N : ℕ) (f : poly q N) : polyMul q N f 0 = 0 := by
  simp [polyMul]

theorem polyMul_sum_left (q N : ℕ) {α : Type} (s : Finset α) (F : α → poly q N)
    (g : poly q N) : polyMul q N (∑ x ∈ s, F x) g = ∑ x ∈ s, polyMul q N (F x) g :=
  map_sum (AddMonoidHom.mk' (fun f => polyMul q N f g)
    (fun a b => polyMul_add_left q N a b g)) F s

theorem polyMul_sum_right (q N : ℕ) {α : Type} (s : Finset α) (f : poly q N)
    (G : α → poly q N) : polyMul q N f (∑ x ∈ s, G x) = ∑ x ∈ s, polyMul q N f (G x) :=
  map_sum (AddMonoidHom.mk' (fun g => polyMul q N f g)
    (fun a b => polyMul_add_right q N f a b)) G s

theorem polyMul_neg_right (q N : ℕ) (f g : poly q N) :
    polyMul q N f (-g) = - polyMul q N f g := by
  have h := polyMul_add_right q N f g (-g)
  simp only [add_neg_cancel, polyMul_zero_right] at h
  exact (neg_eq_of_add_eq_zero_right h.symm).symm

theorem galoisAct_mul (q N : ℕ) (hN : 0 < N) {t : ℕ} (ht : Odd t) (f g : poly q N) :
    galoisAct q N t (polyMul q N f g) = polyMul q N (galoisAct q N t f) (galoisAct q N t g) := by
  have hf : galoisAct q N t f = ∑ i : Fin N, f i • monoNC q N (t * i.val) := rfl
  have hg : galoisAct q N t g = ∑ j : Fin N, g j • monoNC q N (t * j.val) := rfl
  have hfg : polyMul q N f g =
      ∑ i : Fin N, ∑ j : Fin N, (f i * g j) • monoNC q N (i.val + j.val) := rfl
  rw [hfg, hf, hg, galoisAct_sum, polyMul_sum_left]
  refine Finset.sum_congr rfl (fun i _ => ?_)
  rw [galoisAct_sum, polyMul_sum_right]
  refine Finset.sum_congr rfl (fun j _ => ?_)
  rw [galoisAct_smul, galoisAct_monoNC q N hN ht, polyMul_smul_left, polyMul_smul_right,
    polyMul_monoNC_monoNC q N hN, smul_smul, Nat.mul_add]

theorem polyMul_assoc (q N : ℕ) (hN : 0 < N) (f g h : poly q N) :
    polyMul q N (polyMul q N f g) h = polyMul q N f (polyMul q N g h) := by
  have hfg : polyMul q N f g =
      ∑ i : Fin N, ∑ j : Fin N, (f i * g j) • monoNC q N (i.val + j.val) := rfl
  have hgh : polyMul q N g h =
      ∑ j : Fin N, ∑ k : Fin N, (g j * h k) • monoNC q N (j.val + k.val) := rfl
  have hLHS : polyMul q N (polyMul q N f g) h =
      ∑ i : Fin N, ∑ j : Fin N, ∑ k : Fin N,
        (f i * g j * h k) • monoNC q N (i.val + j.val + k.val) := by
    rw [hfg, polyMul_sum_left]
    refine Finset.sum_congr rfl (fun i _ => ?_)
    rw [polyMul_sum_left]
    refine Finset.sum_congr rfl (fun j _ => ?_)
    rw [polyMul_smul_left, polyMul_monoNC_left q N hN, Finset.smul_sum]
    refine Finset.sum_congr rfl (fun k _ => ?_)
    rw [smul_comm, smul_smul, mul_comm (h k)]
  have hRHS : polyMul q N f (polyMul q N g h) =
      ∑ j : Fin N, ∑ k : Fin N, ∑ i : Fin N,
        (f i * g j * h k) • monoNC q N (i.val + j.val + k.val) := by
    rw [hgh, polyMul_sum_right]
    refine Finset.sum_congr rfl (fun j _ => ?_)
    rw [polyMul_sum_right]
    refine Finset.sum_congr rfl (fun k _ => ?_)
    rw [polyMul_smul_right, polyMul_monoNC_right q N hN, Finset.smul_sum]
    refine Finset.sum_congr rfl (fun i _ => ?_)
    rw [smul_comm, smul_smul, ← mul_assoc]
    have he : j.val + k.val + i.val = i.val + j.val + k.val := by omega
    rw [he]
  rw [hLHS, hRHS, Finset.sum_comm]
  refine Finset.sum_congr rfl (fun j _ => ?_)
  rw [Finset.sum_comm]

theorem polyMul_one (q N : ℕ) (hN : 0 < N) (f : poly q N) :
    polyMul q N f (monoNC q N 0) = f := by
  rw [polyMul_monoNC_right q N hN 0 f]
  rw [Finset.sum_congr rfl (fun i _ => by rw [Nat.zero_add])]
  exact sum_basis q N hN f

theorem automorphism_mod (N : ℕ) (R : SlotRingDesc) (i : ℕ) :
    automorphism N R i % (2 * N) = automorphism N R i := by
  unfold automorphism
  split <;> exact Nat.mod_mod_of_dvd _ (dvd_refl _)

theorem sum_range_mul_split {M : Type} [AddCommMonoid M] (G d : ℕ) (F : ℕ → M) :
    ∑ k ∈ Finset.range (G * d), F k =
      ∑ j ∈ Finset.range G, ∑ i ∈ Finset.range d, F (j * d + i) := by
  induction G with
  | zero => simp
  | succ n ih =>
    have hsplit : (n + 1) * d = n * d + d := by ring
    rw [hsplit, Finset.range_eq_Ico,
      ← Finset.sum_Ico_consecutive _ (Nat.zero_le (n * d)) (Nat.le_add_right _ d),
      ← Finset.range_eq_Ico, ih, Finset.sum_range_succ]
    congr 1
    rw [Finset.sum_Ico_eq_sum_range]
    simp

theorem fix_getD (q N : ℕ) (R : SlotRingDesc) (flag : Bool) (a : List (poly q N))
    (k : ℕ) (hk : k < a.length) :
    (fix_coefficient_shift q N R ⟨flag, a⟩).coefficients.getD k 0 =
      galoisAct q N (reverse_automorphism N R (k / R.d * R.d)) (a.getD k 0) := by
  unfold fix_coefficient_shift
  rw [List.getD_eq_getElem?_getD, List.getElem?_map, List.getElem?_range hk]
  rfl

theorem fix_length (q N : ℕ) (R : SlotRingDesc) (T : CompiledLinearTransform q N) :
    (fix_coefficient_shift q N R T).coefficients.length = T.coefficients.length := by
  unfold fix_coefficient_shift
  simp

/-- Core correctness of the BSGS shift correction: after
`fix_coefficient_shift`, the plaintext BSGS evaluator realizes exactly the
directly-indexed sum `x ↦ Σ_k c_k σ_k(x)` over the accumulated coefficients. -/
theorem evaluate_fix_eq_sum (q N : ℕ) (R : SlotRingDesc) (hN : 0 < N) (hd : 0 < R.d)
    (flag : Bool) (a : List (poly q N)) (G : ℕ) (hlen : a.length = G * R.d)
    (hodd : ∀ k, k < a.length → Odd (automorphism N R k))
    (halign : ∀ jj, jj < G → ∀ i, i < R.d →
      automorphism N R (jj * R.d) * automorphism N R i % (2 * N) =
        automorphism N R (jj * R.d + i))
    (hinv : ∀ jj, jj < G →
      automorphism N R (jj * R.d) * reverse_automorphism N R (jj * R.d) % (2 * N) =
        1 % (2 * N))
    (x : poly q N) :
    evaluate q N R (fix_coefficient_shift q N R ⟨flag, a⟩) x =
      ∑ k ∈ Finset.range a.length,
        polyMul q N (a.getD k 0) (galoisAct q N (automorphism N R k) x) := by
  have hG : (fix_coefficient_shift q N R ⟨flag, a⟩).coefficients.length / R.d = G := by
    rw [fix_length, hlen]
    exact Nat.mul_div_cancel _ hd
  unfold evaluate
  rw [hG, hlen, sum_range_mul_split G R.d _]
  refine Finset.sum_congr rfl (fun j hj => ?_)
  rw [Finset.mem_range] at hj
  have hGpos : 0 < G := by omega
  rw [galoisAct_sum]
  refine Finset.sum_congr rfl (fun i hi => ?_)
  rw [Finset.mem_range] at hi
  have hkd : j * R.d + i < a.length := by
    rw [hlen]
    calc j * R.d + i < j * R.d + R.d := by omega
      _ = (j + 1) * R.d := by ring
      _ ≤ G * R.d := Nat.mul_le_mul_right _ (by omega)
  have hdiv : (j * R.d + i) / R.d = j := by
    rw [Nat.add_comm, Nat.add_mul_div_right i j hd, Nat.div_eq_of_lt hi, Nat.zero_add]
  have hgetD := fix_getD q N R flag a (j * R.d + i) hkd
  rw [hdiv] at hgetD
  rw [hgetD]
  have hjd : j * R.d < a.length := by
    calc j * R.d ≤ j * R.d + i := Nat.le_add_right _ _
      _ < a.length := hkd
  have hoddgj : Odd (automorphism N R (j * R.d)) := hodd _ hjd
  rw [galoisAct_mul q N hN hoddgj, galoisAct_comp q N hN hoddgj,
    galoisAct_comp q N hN hoddgj, galoisAct_congr_mod q N (hinv j hj),
    galoisAct_one_exp q N hN]
  have h1 : automorphism N R (j * R.d) * automorphism N R i % (2 * N) =
      automorphism N R (j * R.d + i) % (2 * N) := by
    rw [halign j hj i hi, automorphism_mod]
  rw [galoisAct_congr_mod q N h1 x]

theorem polyPow_add (q N : ℕ) (hN : 0 < N) (f : poly q N) (a b : ℕ) :
    polyPow q N f (a + b) = polyMul q N (polyPow q N f a) (polyPow q N f b) := by
  induction b with
  | zero => rw [Nat.add_zero]; exact (polyMul_one q N hN _).symm
  | succ n ih =>
    show polyMul q N (polyPow q N f (a + n)) f = _
    rw [ih, polyMul_assoc q N hN]
    rfl

theorem NegacyclicPowerTable.build_content_getD (q N : ℕ) (gen : poly q N) (h k : ℕ)
    (hk : k < h) :
    (NegacyclicPowerTable.build q N gen h).content.getD k 0 = polyPow q N gen k := by
  unfold NegacyclicPowerTable.build
  rw [List.getD_eq_getElem?_getD, List.getElem?_map, List.getElem?_range hk]
  rfl

theorem compile_frobenius_length (q N p d : ℕ) (entries : List ((ℕ × ℕ) × ℕ))
    (zpow dual : ℕ → poly q N) :
    (compile_frobenius q N p d entries zpow dual).length = d := by
  unfold compile_frobenius
  simp

theorem compile_frobenius_getD (q N p d : ℕ) (entries : List ((ℕ × ℕ) × ℕ))
    (zpow dual : ℕ → poly q N) (l : ℕ) (hl : l < d) :
    (compile_frobenius q N p d entries zpow dual).getD l 0 =
      (entries.map (fun ent =>
        (ent.2 : ZMod q) • polyMul q N (zpow ent.1.1)
          (galoisAct q N (p ^ l) (dual ent.1.2)))).sum := by
  unfold compile_frobenius
  rw [List.getD_eq_getElem?_getD, List.getElem?_map, List.getElem?_range hl]
  rfl

/-- The reconstruction `Σ_l c_l · π^l(ζ^t)` of the block from its Frobenius
coefficients, evaluated on the power-basis monomial at position `t`, equals
the sparse matrix action on that monomial: helper form, proven by induction
over the sparse entry list. -/
theorem compile_frobenius_action (q N p d : ℕ) (hN : 0 < N) (hp : Odd p)
    (zpow dual zeta : ℕ → poly q N) (iota : poly q N)
    (htrace : ∀ u, u < d → ∀ t, t < d →
      ∑ l ∈ Finset.range d,
        galoisAct q N (p ^ l) (polyMul q N (dual u) (zeta t)) =
        (if u = t then iota else 0))
    (entries : List ((ℕ × ℕ) × ℕ))
    (hentries : ∀ ent ∈ entries, ent.1.1 < d ∧ ent.1.2 < d)
    (t : ℕ) (ht : t < d) :
    ∑ l ∈ Finset.range d,
      polyMul q N ((compile_frobenius q N p d entries zpow dual).getD l 0)
        (galoisAct q N (p ^ l) (zeta t)) =
      (entries.map (fun ent =>
        (ent.2 : ZMod q) •
          (if ent.1.2 = t then polyMul q N (zpow ent.1.1) iota else 0))).sum := by
  induction entries with
  | nil =>
    have h0 : ∀ l ∈ Finset.range d,
        polyMul q N ((compile_frobenius q N p d [] zpow dual).getD l 0)
          (galoisAct q N (p ^ l) (zeta t)) = (0 : poly q N) := by
      intro l hl
      rw [Finset.mem_range] at hl
      rw [compile_frobenius_getD q N p d [] zpow dual l hl]
      simp [polyMul_zero_left]
    rw [Finset.sum_congr rfl h0]
    simp
  | cons ent rest ih =>
    have hent := hentries ent (List.mem_cons_self _ _)
    have hrest : ∀ e ∈ rest, e.1.1 < d ∧ e.1.2 < d :=
      fun e he => hentries e (List.mem_cons_of_mem _ he)
    have hsplit : ∀ l, l < d →
        (compile_frobenius q N p d (ent :: rest) zpow dual).getD l 0 =
          (ent.2 : ZMod q) • polyMul q N (zpow ent.1.1)
            (galoisAct q N (p ^ l) (dual ent.1.2)) +
          (compile_frobenius q N p d rest zpow dual).getD l 0 := by
      intro l hl
      rw [compile_frobenius_getD q N p d _ zpow dual l hl,
        compile_frobenius_getD q N p d rest zpow dual l hl]
      simp
    have hLHS : ∑ l ∈ Finset.range d,
        polyMul q N ((compile_frobenius q N p d (ent :: rest) zpow dual).getD l 0)
          (galoisAct q N (p ^ l) (zeta t)) =
        (∑ l ∈ Finset.range d,
          polyMul q N ((ent.2 : ZMod q) • polyMul q N (zpow ent.1.1)
            (galoisAct q N (p ^ l) (dual ent.1.2)))
            (galoisAct q N (p ^ l) (zeta t))) +
        ∑ l ∈ Finset.range d,
          polyMul q N ((compile_frobenius q N p d rest zpow dual).getD l 0)
            (galoisAct q N (p ^ l) (zeta t)) := by
      rw [← Finset.sum_add_distrib]
      refine Finset.sum_congr rfl (fun l hl => ?_)
      rw [Finset.mem_range] at hl
      rw [hsplit l hl, polyMul_add_left]
    rw [hLHS, ih hrest]
    have hsingle : ∑ l ∈ Finset.range d,
        polyMul q N ((ent.2 : ZMod q) • polyMul q N (zpow ent.1.1)
          (galoisAct q N (p ^ l) (dual ent.1.2)))
          (galoisAct q N (p ^ l) (zeta t)) =
        (ent.2 : ZMod q) •
          (if ent.1.2 = t then polyMul q N (zpow ent.1.1) iota else 0) := by
      have hstep : ∀ l, l < d →
          polyMul q N ((ent.2 : ZMod q) • polyMul q N (zpow ent.1.1)
            (galoisAct q N (p ^ l) (dual ent.1.2)))
            (galoisAct q N (p ^ l) (zeta t)) =
          (ent.2 : ZMod q) • polyMul q N (zpow ent.1.1)
            (galoisAct q N (p ^ l) (polyMul q N (dual ent.1.2) (zeta t))) := by
        intro l hl
        rw [polyMul_smul_left, polyMul_assoc q N hN,
          galoisAct_mul q N hN (Odd.pow hp)]
      rw [Finset.sum_congr rfl (fun l hl => hstep l (Finset.mem_range.mp hl)),
        ← Finset.smul_sum, ← polyMul_sum_right, htrace ent.1.2 hent.2 t ht]
      by_cases hc : ent.1.2 = t
      · rw [if_pos hc, if_pos hc]
      · rw [if_neg hc, if_neg hc, polyMul_zero_right]
    rw [hsingle]
    simp

theorem events_body_no_fix (len d : ℕ) (g : Bool)
    (cb : ℕ → ℕ → List ((ℕ × ℕ) × ℕ)) :
    CompileEvent.callFixShift ∉
      (List.range (if g then len else len / 2)).flatMap (fun s =>
        (List.range (if g then len else len / 2)).flatMap (fun j =>
          if cb j ((j + (if g then len else len / 2) - s) %
              (if g then len else len / 2)) = [] then []
          else CompileEvent.callFrobenius s j ::
            (List.range d).flatMap (fun l =>
              CompileEvent.callAddScaled s j l false ::
                (if g then [] else [CompileEvent.callAddScaled s j l true])))) := by
  intro hmem
  rw [List.mem_flatMap] at hmem
  obtain ⟨s, _, hmem⟩ := hmem
  rw [List.mem_flatMap] at hmem
  obtain ⟨j, _, hmem⟩ := hmem
  by_cases hc : cb j ((j + (if g then len else len / 2) - s) %
      (if g then len else len / 2)) = []
  · rw [if_pos hc] at hmem
    exact List.not_mem_nil _ hmem
  · rw [if_neg hc] at hmem
    rcases List.mem_cons.mp hmem with h | h
    · exact CompileEvent.noConfusion h
    · rw [List.mem_flatMap] at h
      obtain ⟨l, _, h⟩ := h
      rcases List.mem_cons.mp h with h2 | h2
      · exact CompileEvent.noConfusion h2
      · cases g
        · rcases List.mem_cons.mp h2 with h3 | h3
          · exact CompileEvent.noConfusion h3
          · exact List.not_mem_nil _ h3
        · exact List.not_mem_nil _ h2

theorem readPoly_encode (q N : ℕ) [NeZero q] (c : poly q N) (rest : List ℕ) :
    readPoly q N (List.ofFn (fun k : Fin N => (c k).val) ++ rest) = some (c, rest) := by
  unfold readPoly
  rw [if_pos (by rw [List.length_append, List.length_ofFn]; omega)]
  congr 1
  have hdrop : (List.ofFn (fun k : Fin N => (c k).val) ++ rest).drop N = rest :=
    List.drop_left' (List.length_ofFn _)
  have hfun : (fun k : Fin N =>
      (((List.ofFn (fun k' : Fin N => (c k').val) ++ rest).getD k.val 0 : ℕ) : ZMod q)) = c := by
    funext k
    have hk : k.val < (List.ofFn (fun k' : Fin N => (c k').val)).length := by
      rw [List.length_ofFn]; exact k.isLt
    rw [List.getD_eq_getElem?_getD, List.getElem?_append_left hk, List.getElem?_ofFn]
    simp [List.ofFnNthVal, k.isLt, ZMod.natCast_val]
  rw [hdrop, hfun]

theorem readPolys_encode (q N : ℕ) [NeZero q] (cs : List (poly q N)) :
    readPolys q N cs.length
      (cs.flatMap (fun c => List.ofFn (fun k : Fin N => (c k).val))) =
      some (cs, []) := by
  induction cs with
  | nil => rfl
  | cons c rest ih =>
    show readPolys q N (rest.length + 1)
        ((c :: rest).flatMap fun c' => List.ofFn fun k => (c' k).val) =
      some (c :: rest, [])
    rw [List.flatMap_cons]
    unfold readPolys
    rw [readPoly_encode q N c]
    show (match readPolys q N rest.length
        (rest.flatMap fun c' => List.ofFn fun k => (c' k).val) with
      | none => none
      | some (cs, rest2) => some ((c :: cs : List (poly q N)), rest2)) =
      some (c :: rest, [])
    rw [ih]

theorem add_scaled_transform_length (q N : ℕ) (R : SlotRingDesc)
    (T : CompiledLinearTransform q N) (c : poly q N) (rot frob : ℕ) :
    (add_scaled_transform q N R T c rot frob).coefficients.length =
      T.coefficients.length := by
  unfold add_scaled_transform
  split
  · simp
  · split
    · simp
    · rfl

theorem add_scaled_transform_flag (q N : ℕ) (R : SlotRingDesc)
    (T : CompiledLinearTransform q N) (c : poly q N) (rot frob : ℕ) :
    (add_scaled_transform q N R T c rot frob).g2_included = T.g2_included := by
  unfold add_scaled_transform
  split
  · rfl
  · split
    · rfl
    · rfl

theorem fix_coefficient_shift_flag (q N : ℕ) (R : SlotRingDesc)
    (T : CompiledLinearTransform q N) :
    (fix_coefficient_shift q N R T).g2_included = T.g2_included := rfl

theorem foldl_preserve {α β : Type} (P : β → Prop) (f : β → α → β)
    (hf : ∀ b a, P b → P (f b a)) : ∀ (l : List α) (b : β), P b → P (l.foldl f b)
  | [], _, hb => hb
  | a :: l, b, hb => foldl_preserve P f hf l (f b a) (hf b a hb)

theorem compile_slot_basis_inv (q N : ℕ) (M : SlotRingModel q N)
    (cb : ℕ → ℕ → List ((ℕ × ℕ) × ℕ)) (g : Bool) :
    (compile_slot_basis q N M cb g).coefficients.length =
      (if g then M.desc.len else M.desc.len / 2) * M.desc.d ∧
    (compile_slot_basis q N M cb g).g2_included = g := by
  set L := (if g then M.desc.len else M.desc.len / 2) * M.desc.d with hL
  have hadd : ∀ (T : CompiledLinearTransform q N) (c : poly q N) (rot frob : ℕ),
      sbInv q N L g T → sbInv q N L g (add_scaled_transform q N M.desc T c rot frob) := by
    intro T c rot frob hT
    exact ⟨by rw [add_scaled_transform_length, hT.1],
      by rw [add_scaled_transform_flag, hT.2]⟩
  have hinner : ∀ (rotations : List ℕ) (lane : ℕ) (ff : List (poly q N)) (s j : ℕ)
      (T : CompiledLinearTransform q N) (l : ℕ), sbInv q N L g T →
      sbInv q N L g (slot_basis_inner q N M.desc g rotations lane ff s j T l) := by
    intro rotations lane ff s j T l hT
    unfold slot_basis_inner
    cases g
    · simp only [Bool.false_eq_true, if_false]
      exact hadd _ _ _ _ (hadd _ _ _ _ hT)
    · simp only [if_true]
      exact hadd _ _ _ _ hT
  have hblock : ∀ (bs : ℕ) (rotations : List ℕ) (lane : ℕ) (s : ℕ)
      (T : CompiledLinearTransform q N) (j : ℕ), sbInv q N L g T →
      sbInv q N L g (slot_basis_block q N M g bs rotations lane cb s T j) := by
    intro bs rotations lane s T j hT
    unfold slot_basis_block
    dsimp only
    split
    · exact hT
    · exact foldl_preserve (sbInv q N L g) _
        (fun b a hb => hinner _ _ _ _ _ b a hb) _ T hT
  have hinit : sbInv q N L g
      (⟨g, List.replicate ((if g then M.desc.len else M.desc.len / 2) * M.desc.d)
        (0 : poly q N)⟩ : CompiledLinearTransform q N) := by
    constructor
    · show (List.replicate _ _).length = L
      rw [List.length_replicate, hL]
    · rfl
  have hres : sbInv q N L g
      ((List.range (if g then M.desc.len else M.desc.len / 2)).foldl (fun acc s =>
        (List.range (if g then M.desc.len else M.desc.len / 2)).foldl
          (slot_basis_block q N M g (if g then M.desc.len else M.desc.len / 2)
            ((List.range (if g then M.desc.len else M.desc.len / 2)).map
              (fun i => M.desc.g1 ^ i % (2 * N)))
            (M.desc.g1 ^ (if g then M.desc.len else M.desc.len / 2) % (2 * N)) cb s) acc)
        ⟨g, List.replicate ((if g then M.desc.len else M.desc.len / 2) * M.desc.d)
          (0 : poly q N)⟩) := by
    refine foldl_preserve (sbInv q N L g) _ (fun b s hb => ?_) _ _ hinit
    exact foldl_preserve (sbInv q N L g) _ (fun b2 j hb2 => hblock _ _ _ _ b2 j hb2) _ b hb
  constructor
  · show (fix_coefficient_shift q N M.desc _).coefficients.length = _
    rw [fix_length]
    exact hres.1
  · show (fix_coefficient_shift q N M.desc _).g2_included = _
    rw [fix_coefficient_shift_flag]
    exact hres.2

theorem odd_mod_two_mul (N x : ℕ) (hx : Odd x) : Odd (x % (2 * N)) := by
  rcases Nat.eq_zero_or_pos N with h0 | hpos
  · rw [h0]; simpa using hx
  · rw [Nat.odd_iff] at hx ⊢
    rw [Nat.mod_mod_of_dvd x ⟨N, rfl⟩]
    exact hx

/-- C4: for every index `i`, `automorphism(i)` is the Galois automorphism
mapping `X` to `X^(g1^(m·i))` when `m·i < ord(g1)` and to
`X^(g1^(m·i)·g2)` when `m·i ≥ ord(g1)` (stated by its action on the
monomial `X`), and `automorphism`, `difference_automorphism` and
`reverse_automorphism` are pure functions of the index and the ring
descriptor's generators: descriptors agreeing on `g1`, `g2`, `ord(g1)` and
the stride `m` produce identical results (no other state enters). -/
theorem C4_automorphism_indexing (q N : ℕ) (hN : 0 < N) (R R2 : SlotRingDesc)
    (hg1 : Odd R.g1) (hg2 : Odd R.g2) (i a b : ℕ)
    (heq1 : R.g1 = R2.g1) (heq2 : R.g2 = R2.g2) (heq3 : R.ordg1 = R2.ordg1)
    (heq4 : R.m = R2.m) :
    galoisAct q N (automorphism N R i) (monoNC q N 1) =
      (if R.m * i < R.ordg1 then monoNC q N (R.g1 ^ (R.m * i))
       else monoNC q N (R.g1 ^ (R.m * i) * R.g2)) ∧
    automorphism N R i = automorphism N R2 i ∧
    reverse_automorphism N R i = reverse_automorphism N R2 i ∧
    difference_automorphism N R a b = difference_automorphism N R2 a b := by
  refine ⟨?_, ?_, ?_, ?_⟩
  · have hodd : Odd (automorphism N R i) := by
      unfold automorphism
      split
      · exact odd_mod_two_mul N _ (Odd.pow hg1)
      · exact odd_mod_two_mul N _ (Odd.mul (Odd.pow hg1) hg2)
    rw [galoisAct_monoNC q N hN hodd, Nat.mul_one]
    unfold automorphism
    split
    · exact monoNC_congr q N (Nat.mod_mod_of_dvd _ (dvd_refl _))
    · exact monoNC_congr q N (Nat.mod_mod_of_dvd _ (dvd_refl _))
  · unfold automorphism
    rw [heq1, heq2, heq3, heq4]
  · unfold reverse_automorphism automorphism
    rw [heq1, heq2, heq3, heq4]
  · unfold difference_automorphism reverse_automorphism automorphism
    rw [heq1, heq2, heq3, heq4]

/-- C5: during accumulation the stored coefficient at position `k` is
`σ_{j(k)}(c_k)` for the giant-step index `j(k) = ⌊k/d⌋`;
`fix_coefficient_shift` applies `σ_{j(k)}⁻¹` to every stored coefficient
(first conjunct), after which the stored coefficients are exactly the `c_k`
used directly by the BSGS evaluation formula: evaluating the fixed
transform computes `x ↦ Σ_j σ_{j·d}(Σ_i c_{j·d+i} σ_i(x)) = Σ_k c_k σ_k(x)`
over the accumulated list (second conjunct). -/
theorem C5_fix_coefficient_shift (q N : ℕ) (R : SlotRingDesc) (hN : 0 < N)
    (hd : 0 < R.d) (flag : Bool) (a : List (poly q N)) (G : ℕ)
    (hlen : a.length = G * R.d)
    (hodd : ∀ k, k < a.length → Odd (automorphism N R k))
    (halign : ∀ jj, jj < G → ∀ i, i < R.d →
      automorphism N R (jj * R.d) * automorphism N R i % (2 * N) =
        automorphism N R (jj * R.d + i))
    (hinv : ∀ jj, jj < G →
      automorphism N R (jj * R.d) * reverse_automorphism N R (jj * R.d) % (2 * N) =
        1 % (2 * N))
    (x : poly q N) :
    (∀ k, k < a.length →
      (fix_coefficient_shift q N R ⟨flag, a⟩).coefficients.getD k 0 =
        galoisAct q N (reverse_automorphism N R (k / R.d * R.d)) (a.getD k 0)) ∧
    evaluate q N R (fix_coefficient_shift q N R ⟨flag, a⟩) x =
      ∑ k ∈ Finset.range a.length,
        polyMul q N (a.getD k 0) (galoisAct q N (automorphism N R k) x) :=
  ⟨fun k hk => fix_getD q N R flag a k hk,
    evaluate_fix_eq_sum q N R hN hd flag a G hlen hodd halign hinv x⟩

/-- C6: for every slot-ring geometry and every callback,
`compile_slot_basis` calls `fix_coefficient_shift` exactly once, after all
of its `add_scaled_transform` calls and before returning (it is the final
event of the call protocol). -/
theorem C6_fix_called_once_last (len d : ℕ) (g : Bool)
    (cb : ℕ → ℕ → List ((ℕ × ℕ) × ℕ)) :
    (compile_slot_basis_events len d g cb).count CompileEvent.callFixShift = 1 ∧
    (compile_slot_basis_events len d g cb).getLast? =
      some CompileEvent.callFixShift := by
  constructor
  · unfold compile_slot_basis_events
    rw [List.count_append, List.count_eq_zero.mpr (events_body_no_fix len d g cb)]
    rfl
  · unfold compile_slot_basis_events
    exact List.getLast?_concat _

/-- C10: during compile_slot_basis, a block for which the callback leaves
the sparse map empty is skipped entirely: neither `compile_frobenius` nor
`add_scaled_transform` is invoked for that block, so an all-zero block
contributes nothing and incurs no compilation work. -/
theorem C10_empty_block_skipped (len d : ℕ) (g : Bool)
    (cb : ℕ → ℕ → List ((ℕ × ℕ) × ℕ)) (s j : ℕ)
    (hempty : cb j ((j + (if g then len else len / 2) - s) %
      (if g then len else len / 2)) = []) :
    CompileEvent.callFrobenius s j ∉ compile_slot_basis_events len d g cb ∧
    ∀ l b, CompileEvent.callAddScaled s j l b ∉ compile_slot_basis_events len d g cb := by
  constructor
  · intro hmem
    unfold compile_slot_basis_events at hmem
    rcases List.mem_append.mp hmem with hbody | hfix
    · rw [List.mem_flatMap] at hbody
      obtain ⟨s2, _, hbody⟩ := hbody
      rw [List.mem_flatMap] at hbody
      obtain ⟨j2, _, hbody⟩ := hbody
      by_cases hc : cb j2 ((j2 + (if g then len else len / 2) - s2) %
          (if g then len else len / 2)) = []
      · rw [if_pos hc] at hbody
        exact List.not_mem_nil _ hbody
      · rw [if_neg hc] at hbody
        rcases List.mem_cons.mp hbody with h | h
        · injection h with hs hj
          rw [← hs, ← hj] at hc
          exact hc hempty
        · rw [List.mem_flatMap] at h
          obtain ⟨l, _, h⟩ := h
          rcases List.mem_cons.mp h with h2 | h2
          · exact CompileEvent.noConfusion h2
          · cases g
            · rcases List.mem_cons.mp h2 with h3 | h3
              · exact CompileEvent.noConfusion h3
              · exact List.not_mem_nil _ h3
            · exact List.not_mem_nil _ h2
    · rcases List.mem_cons.mp hfix with h | h
      · exact CompileEvent.noConfusion h
      · exact List.not_mem_nil _ h
  · intro l b hmem
    unfold compile_slot_basis_events at hmem
    rcases List.mem_append.mp hmem with hbody | hfix
    · rw [List.mem_flatMap] at hbody
      obtain ⟨s2, _, hbody⟩ := hbody
      rw [List.mem_flatMap] at hbody
      obtain ⟨j2, _, hbody⟩ := hbody
      by_cases hc : cb j2 ((j2 + (if g then len else len / 2) - s2) %
          (if g then len else len / 2)) = []
      · rw [if_pos hc] at hbody
        exact List.not_mem_nil _ hbody
      · rw [if_neg hc] at hbody
        rcases List.mem_cons.mp hbody with h | h
        · exact CompileEvent.noConfusion h
        · rw [List.mem_flatMap] at h
          obtain ⟨l2, _, h⟩ := h
          rcases List.mem_cons.mp h with h2 | h2
          · injection h2 with hs hj hl hb
            rw [← hs, ← hj] at hc
            exact hc hempty
          · cases g
            · rcases List.mem_cons.mp h2 with h3 | h3
              · injection h3 with hs hj hl hb
                rw [← hs, ← hj] at hc
                exact hc hempty
              · exact List.not_mem_nil _ h3
            · exact List.not_mem_nil _ h2
    · rcases List.mem_cons.mp hfix with h | h
      · exact CompileEvent.noConfusion h
      · exact List.not_mem_nil _ h

/-- C7: for every integer exponent `i` (negative or beyond `2N` included),
the power table lookup first reduces `i` modulo twice the half-order; if
the reduced exponent is at least the half-order it returns the negation of
the cached power at (reduced − halfOrder), else the cached power directly
(first conjunct); consequently, under the negacyclic rule
`gen^halfOrder = -1`, the lookup always equals `gen^i` (the reduced power
of the generator, second conjunct). -/
theorem C7_power_table_lookup (q N : ℕ) (hN : 0 < N) (gen : poly q N) (h : ℕ)
    (hh : 0 < h) (hneg : polyPow q N gen h = - monoNC q N 0) (i : ℤ) :
    (NegacyclicPowerTable.get q N (NegacyclicPowerTable.build q N gen h) i =
      if h ≤ (i % (2 * (h : ℤ))).toNat
      then - polyPow q N gen ((i % (2 * (h : ℤ))).toNat - h)
      else polyPow q N gen ((i % (2 * (h : ℤ))).toNat)) ∧
    NegacyclicPowerTable.get q N (NegacyclicPowerTable.build q N gen h) i =
      polyPow q N gen ((i % (2 * (h : ℤ))).toNat) := by
  have h2h : (0 : ℤ) < 2 * (h : ℤ) := by positivity
  have hlt : (i % (2 * (h : ℤ))).toNat < 2 * h := by
    have h1 : i % (2 * (h : ℤ)) < 2 * (h : ℤ) := Int.emod_lt_of_pos i h2h
    have h2 : 0 ≤ i % (2 * (h : ℤ)) := Int.emod_nonneg i (by omega)
    omega
  have hpart1 : NegacyclicPowerTable.get q N (NegacyclicPowerTable.build q N gen h) i =
      if h ≤ (i % (2 * (h : ℤ))).toNat
      then - polyPow q N gen ((i % (2 * (h : ℤ))).toNat - h)
      else polyPow q N gen ((i % (2 * (h : ℤ))).toNat) := by
    unfold NegacyclicPowerTable.get
    show (if h ≤ (i % (2 * (h : ℤ))).toNat
      then - (NegacyclicPowerTable.build q N gen h).content.getD
        ((i % (2 * (h : ℤ))).toNat - h) 0
      else (NegacyclicPowerTable.build q N gen h).content.getD
        ((i % (2 * (h : ℤ))).toNat) 0) = _
    by_cases hcase : h ≤ (i % (2 * (h : ℤ))).toNat
    · rw [if_pos hcase, if_pos hcase,
        NegacyclicPowerTable.build_content_getD q N gen h _ (by omega)]
    · rw [if_neg hcase, if_neg hcase,
        NegacyclicPowerTable.build_content_getD q N gen h _ (by omega)]
  refine ⟨hpart1, ?_⟩
  rw [hpart1]
  by_cases hcase : h ≤ (i % (2 * (h : ℤ))).toNat
  · rw [if_pos hcase]
    have hsplit : (i % (2 * (h : ℤ))).toNat = ((i % (2 * (h : ℤ))).toNat - h) + h := by
      omega
    conv_rhs => rw [hsplit]
    rw [polyPow_add q N hN gen _ h, hneg, polyMul_neg_right, polyMul_one q N hN]
  · rw [if_neg hcase]

/-- C8: load_binary applied to the stream produced by save_binary (with the
same ring descriptor) yields a transform whose coefficient sequence is
identical to the original's and which evaluates identically on every
input. -/
theorem C8_save_load_roundtrip (q N : ℕ) [NeZero q] (R : SlotRingDesc)
    (T : CompiledLinearTransform q N) :
    ∃ T2 : CompiledLinearTransform q N,
      load_binary q N R (save_binary q N T) = some T2 ∧
      T2.coefficients = T.coefficients ∧
      ∀ x : poly q N, evaluate q N R T2 x = evaluate q N R T x := by
  refine ⟨⟨T.coefficients.length == R.len * R.d, T.coefficients⟩, ?_, rfl, fun x => rfl⟩
  show (match readPolys q N T.coefficients.length
      (T.coefficients.flatMap fun c => List.ofFn fun k => (c k).val) with
    | none => (none : Option (CompiledLinearTransform q N))
    | some (cs, _) => some ⟨T.coefficients.length == R.len * R.d, cs⟩) = _
  rw [readPolys_encode]

/-- C9: at every point of the lifecycle, the coefficients length equals the
baby-step automorphism count: it holds after construction by
compile_slot_basis (for both settings of the g2 toggle), and both
add_scaled_transform and fix_coefficient_shift preserve it. -/
theorem C9_coefficients_length_invariant (q N : ℕ) (M : SlotRingModel q N)
    (hring : M.desc.len * M.desc.d = 2 * (M.desc.ordg1 / M.desc.m))
    (heven : M.desc.len % 2 = 0) :
    (∀ (cb : ℕ → ℕ → List ((ℕ × ℕ) × ℕ)) (g : Bool),
      (compile_slot_basis q N M cb g).coefficients.length =
        babystep_automorphism_count M.desc (compile_slot_basis q N M cb g)) ∧
    (∀ (T : CompiledLinearTransform q N) (c : poly q N) (rot frob : ℕ),
      T.coefficients.length = babystep_automorphism_count M.desc T →
      (add_scaled_transform q N M.desc T c rot frob).coefficients.length =
        babystep_automorphism_count M.desc (add_scaled_transform q N M.desc T c rot frob)) ∧
    (∀ T : CompiledLinearTransform q N,
      T.coefficients.length = babystep_automorphism_count M.desc T →
      (fix_coefficient_shift q N M.desc T).coefficients.length =
        babystep_automorphism_count M.desc (fix_coefficient_shift q N M.desc T)) := by
  obtain ⟨half, hhalf⟩ : ∃ half, M.desc.len = 2 * half := ⟨M.desc.len / 2, by omega⟩
  have hcount : ∀ T : CompiledLinearTransform q N,
      babystep_automorphism_count M.desc T =
        (if T.g2_included then M.desc.len else M.desc.len / 2) * M.desc.d := by
    intro T
    unfold babystep_automorphism_count
    cases hg : T.g2_included
    · simp only [if_false, Bool.false_eq_true]
      have h1 : M.desc.len / 2 = half := by omega
      have h2 : half * M.desc.d = M.desc.ordg1 / M.desc.m := by
        have h3 : 2 * (half * M.desc.d) = 2 * (M.desc.ordg1 / M.desc.m) := by
          rw [← hring, hhalf]; ring
        omega
      rw [h1, h2]
    · simp only [if_true]
      rw [← hring]
  refine ⟨?_, ?_, ?_⟩
  · intro cb g
    obtain ⟨hlen, hflag⟩ := compile_slot_basis_inv q N M cb g
    rw [hlen, hcount, hflag]
  · intro T c rot frob hT
    rw [add_scaled_transform_length, hT, hcount, hcount,
      add_scaled_transform_flag]
  · intro T hT
    rw [fix_length, hT, hcount, hcount, fix_coefficient_shift_flag]

theorem e0c_idempotent : polyMul 7 8 e0c e0c = e0c := by decide

theorem e0c_frobenius_fixed : galoisAct 7 8 7 e0c = e0c := by decide

theorem zetac_is_X_e0 : zetac = polyMul 7 8 (monoNC 7 8 1) e0c := by decide

theorem dualc_trace_property : ∀ u, u < 2 → ∀ t, t < 2 →
    ∑ l ∈ Finset.range 2,
      galoisAct 7 8 (7 ^ l) (polyMul 7 8 (dualc u) (polyMul 7 8 (monoNC 7 8 t) e0c)) =
      (if u = t then e0c else 0) := by decide

/-- C1: for every sparse block matrix with support in a single d×d block,
compile_frobenius returns exactly d coefficient polynomials c_0..c_{d-1}
(first conjunct) such that the map `x ↦ Σ_l c_l π^l(x)` (π the p-power
Frobenius) reproduces the original matrix action exactly on every
power-basis monomial ζ^t of the slot, with exact equality in Z/p^e Z;
(row, col) entries absent from the sparse input contribute zero — the
reproduced action is the sum over the present entries only (second
conjunct). -/
theorem C1_compile_frobenius_correct (q N p d : ℕ) (hN : 0 < N) (hp : Odd p)
    (zpow dual zeta : ℕ → poly q N) (iota : poly q N)
    (htrace : ∀ u, u < d → ∀ t, t < d →
      ∑ l ∈ Finset.range d, galoisAct q N (p ^ l) (polyMul q N (dual u) (zeta t)) =
        (if u = t then iota else 0))
    (entries : List ((ℕ × ℕ) × ℕ))
    (hentries : ∀ ent ∈ entries, ent.1.1 < d ∧ ent.1.2 < d) :
    (compile_frobenius q N p d entries zpow dual).length = d ∧
    ∀ t, t < d →
      ∑ l ∈ Finset.range d,
        polyMul q N ((compile_frobenius q N p d entries zpow dual).getD l 0)
          (galoisAct q N (p ^ l) (zeta t)) =
      (entries.map (fun ent =>
        (ent.2 : ZMod q) •
          (if ent.1.2 = t then polyMul q N (zpow ent.1.1) iota else 0))).sum :=
  ⟨compile_frobenius_length q N p d entries zpow dual,
   fun t ht => compile_frobenius_action q N p d hN hp zpow dual zeta iota htrace
     entries hentries t ht⟩

/-- Witness for C1 at the concrete slot ring (q = p = 7, N = 8, d = 2),
with the power-table ζ-powers, the concrete trace-dual basis, the slot
power basis ζ^t = X^t·e₀, and a three-entry sparse block. -/
theorem C1_compile_frobenius_correct_witness :
    (compile_frobenius 7 8 7 2 c1entries czpow dualc).length = 2 ∧
    ∀ t, t < 2 →
      ∑ l ∈ Finset.range 2,
        polyMul 7 8 ((compile_frobenius 7 8 7 2 c1entries czpow dualc).getD l 0)
          (galoisAct 7 8 (7 ^ l) (polyMul 7 8 (monoNC 7 8 t) e0c)) =
      (c1entries.map (fun ent =>
        (ent.2 : ZMod 7) •
          (if ent.1.2 = t then polyMul 7 8 (czpow ent.1.1) e0c else 0))).sum :=
  C1_compile_frobenius_correct 7 8 7 2 (by decide) (by decide) czpow dualc
    (fun t => polyMul 7 8 (monoNC 7 8 t) e0c) e0c
    dualc_trace_property c1entries (by decide)

/-- Witness for C4 at the concrete descriptor (g1 = 3, g2 = 15, ord(g1) = 4,
m = 1) and index i = 5 (the g2 side of the indexing rule). -/
theorem C4_automorphism_indexing_witness :
    (galoisAct 7 8 (automorphism 8 concreteDesc 5) (monoNC 7 8 1) =
      (if concreteDesc.m * 5 < concreteDesc.ordg1
       then monoNC 7 8 (concreteDesc.g1 ^ (concreteDesc.m * 5))
       else monoNC 7 8 (concreteDesc.g1 ^ (concreteDesc.m * 5) * concreteDesc.g2))) ∧
    automorphism 8 concreteDesc 5 = automorphism 8 concreteDesc 5 ∧
    reverse_automorphism 8 concreteDesc 5 = reverse_automorphism 8 concreteDesc 5 ∧
    difference_automorphism 8 concreteDesc 1 2 = difference_automorphism 8 concreteDesc 1 2 :=
  C4_automorphism_indexing 7 8 (by decide) concreteDesc concreteDesc (by decide) (by decide)
    5 1 2 rfl rfl rfl rfl

/-- Witness for C5 at the concrete descriptor, with an 8-coefficient list
(G = 4 giant steps of d = 2 baby steps) and the input X. -/
theorem C5_fix_coefficient_shift_witness :
    (∀ k, k < c5list.length →
      (fix_coefficient_shift 7 8 concreteDesc ⟨true, c5list⟩).coefficients.getD k 0 =
        galoisAct 7 8
          (reverse_automorphism 8 concreteDesc (k / concreteDesc.d * concreteDesc.d))
          (c5list.getD k 0)) ∧
    evaluate 7 8 concreteDesc (fix_coefficient_shift 7 8 concreteDesc ⟨true, c5list⟩)
      (monoNC 7 8 1) =
      ∑ k ∈ Finset.range c5list.length,
        polyMul 7 8 (c5list.getD k 0)
          (galoisAct 7 8 (automorphism 8 concreteDesc k) (monoNC 7 8 1)) :=
  C5_fix_coefficient_shift 7 8 concreteDesc (by decide) (by decide) true c5list 4
    (by decide) (by decide) (by decide) (by decide) (monoNC 7 8 1)

/-- Witness for C7: generator X in Z/5[X]/(X^4+1) (X^4 = -1, half-order 4),
queried at the negative exponent -3. -/
theorem C7_power_table_lookup_witness :
    (NegacyclicPowerTable.get 5 4 (NegacyclicPowerTable.build 5 4 (monoNC 5 4 1) 4) (-3) =
      if 4 ≤ (((-3 : ℤ) % (2 * (4 : ℤ))).toNat)
      then - polyPow 5 4 (monoNC 5 4 1) ((((-3 : ℤ) % (2 * (4 : ℤ))).toNat) - 4)
      else polyPow 5 4 (monoNC 5 4 1) (((-3 : ℤ) % (2 * (4 : ℤ))).toNat)) ∧
    NegacyclicPowerTable.get 5 4 (NegacyclicPowerTable.build 5 4 (monoNC 5 4 1) 4) (-3) =
      polyPow 5 4 (monoNC 5 4 1) (((-3 : ℤ) % (2 * (4 : ℤ))).toNat) :=
  C7_power_table_lookup 5 4 (by decide) (monoNC 5 4 1) 4 (by decide) (by decide) (-3)

/-- Witness for C8: a one-coefficient transform over Z/7[X]/(X^2+1). -/
theorem C8_save_load_roundtrip_witness :
    ∃ T2 : CompiledLinearTransform 7 2,
      load_binary 7 2 concreteDesc (save_binary 7 2 c8transform) = some T2 ∧
      T2.coefficients = c8transform.coefficients ∧
      ∀ x : poly 7 2, evaluate 7 2 concreteDesc T2 x =
        evaluate 7 2 concreteDesc c8transform x :=
  C8_save_load_roundtrip 7 2 concreteDesc c8transform

/-- Witness for C9 at the concrete slot ring model. -/
theorem C9_coefficients_length_invariant_witness :
    (∀ (cb : ℕ → ℕ → List ((ℕ × ℕ) × ℕ)) (g : Bool),
      (compile_slot_basis 7 8 concreteModel cb g).coefficients.length =
        babystep_automorphism_count concreteModel.desc
          (compile_slot_basis 7 8 concreteModel cb g)) ∧
    (∀ (T : CompiledLinearTransform 7 8) (c : poly 7 8) (rot frob : ℕ),
      T.coefficients.length = babystep_automorphism_count concreteModel.desc T →
      (add_scaled_transform 7 8 concreteModel.desc T c rot frob).coefficients.length =
        babystep_automorphism_count concreteModel.desc
          (add_scaled_transform 7 8 concreteModel.desc T c rot frob)) ∧
    (∀ T : CompiledLinearTransform 7 8,
      T.coefficients.length = babystep_automorphism_count concreteModel.desc T →
      (fix_coefficient_shift 7 8 concreteModel.desc T).coefficients.length =
        babystep_automorphism_count concreteModel.desc
          (fix_coefficient_shift 7 8 concreteModel.desc T)) :=
  C9_coefficients_length_invariant 7 8 concreteModel (by decide) (by decide)

/-- Witness for C10: the all-empty callback with len = 2, d = 1, block
(s, j) = (0, 0). -/
theorem C10_empty_block_skipped_witness :
    CompileEvent.callFrobenius 0 0 ∉ compile_slot_basis_events 2 1 true c10cb ∧
    ∀ l b, CompileEvent.callAddScaled 0 0 l b ∉ compile_slot_basis_events 2 1 true c10cb :=
  C10_empty_block_skipped 2 1 true c10cb 0 0 rfl

theorem evaluate_linear (q N : ℕ) (hN : 0 < N) (R : SlotRingDesc)
    (T : CompiledLinearTransform q N) (x : poly q N) :
    evaluate q N R T x = ∑ k : Fin N, x k • evaluate q N R T (monoNC q N k.val) := by
  have step1 : ∀ (t : ℕ) (c : poly q N),
      polyMul q N c (galoisAct q N t (∑ k : Fin N, x k • monoNC q N k.val)) =
      ∑ k : Fin N, x k • polyMul q N c (galoisAct q N t (monoNC q N k.val)) := by
    intro t c
    rw [galoisAct_sum, polyMul_sum_right]
    refine Finset.sum_congr rfl (fun k _ => ?_)
    rw [galoisAct_smul, polyMul_smul_right]
  unfold evaluate
  conv_lhs => rw [← sum_basis q N hN x]
  trans (∑ j ∈ Finset.range (T.coefficients.length / R.d), ∑ k : Fin N,
    x k • galoisAct q N (automorphism N R (j * R.d))
      (∑ i ∈ Finset.range R.d,
        polyMul q N (T.coefficients.getD (j * R.d + i) 0)
          (galoisAct q N (automorphism N R i) (monoNC q N k.val))))
  · refine Finset.sum_congr rfl (fun j _ => ?_)
    rw [Finset.sum_congr rfl (fun i _ => step1 _ _), Finset.sum_comm, galoisAct_sum]
    refine Finset.sum_congr rfl (fun k _ => ?_)
    rw [← Finset.smul_sum, galoisAct_smul]
  · rw [Finset.sum_comm]
    refine Finset.sum_congr rfl (fun k _ => ?_)
    rw [← Finset.smul_sum]

theorem compiled_id_coeffs :
    (compile_slot_basis 7 8 concreteModel idCallback true).coefficients =
      [monoNC 7 8 0, 0, 0, 0, 0, 0, 0, 0] := by decide

set_option maxHeartbeats 4000000 in
theorem eval_id_mono : ∀ k : Fin 8,
    evaluate 7 8 concreteDesc idCompiled (monoNC 7 8 k.val) = monoNC 7 8 k.val := by
  decide

/-- C3: for the concrete ring with N = 8 and slots of rank d = 2, with the
2×2 identity block matrix as callback input, compile_slot_basis produces a
transform whose plaintext evaluation on every input polynomial of degree
less than 8 returns that same polynomial unchanged. -/
theorem C3_identity_transform (x : poly 7 8) :
    evaluate 7 8 concreteDesc (compile_slot_basis 7 8 concreteModel idCallback true) x =
      x := by
  have hco : ∀ y : poly 7 8,
      evaluate 7 8 concreteDesc (compile_slot_basis 7 8 concreteModel idCallback true) y =
      evaluate 7 8 concreteDesc idCompiled y := by
    intro y
    unfold evaluate
    rw [compiled_id_coeffs]
    rfl
  rw [hco x, evaluate_linear 7 8 (by decide) concreteDesc idCompiled x,
    Finset.sum_congr rfl (fun k _ => by rw [eval_id_mono k])]
  exact sum_basis 7 8 (by decide) x

theorem getD_range_map {β : Type} (f : ℕ → β) (n k : ℕ) (hk : k < n) (dflt : β) :
    ((List.range n).map f).getD k dflt = f k := by
  rw [List.getD_eq_getElem?_getD, List.getElem?_map, List.getElem?_range hk]
  rfl

theorem foldl_flatMap {α β γ : Type} (l : List α) (g : α → List β)
    (f : γ → β → γ) (init : γ) :
    (l.flatMap g).foldl f init = l.foldl (fun acc a => (g a).foldl f acc) init := by
  induction l generalizing init with
  | nil => rfl
  | cons a l ih => rw [List.flatMap_cons, List.foldl_append, ih, List.foldl_cons]

theorem foldl_congr_mem {α β : Type} (l : List α) (f1 f2 : β → α → β)
    (h : ∀ b, ∀ a ∈ l, f1 b a = f2 b a) : ∀ init, l.foldl f1 init = l.foldl f2 init := by
  induction l with
  | nil => intro init; rfl
  | cons a l ih =>
    intro init
    rw [List.foldl_cons, List.foldl_cons, h init a (List.mem_cons_self a l)]
    exact ih (fun b x hx => h b x (List.mem_cons_of_mem a hx)) _

theorem sum_map_flatMap {α β M : Type} [AddCommMonoid M] (l : List α) (g : α → List β)
    (F : β → M) :
    ((l.flatMap g).map F).sum = (l.map (fun a => ((g a).map F).sum)).sum := by
  induction l with
  | nil => rfl
  | cons a l ih =>
    rw [List.flatMap_cons, List.map_append, List.sum_append, ih, List.map_cons,
      List.sum_cons]

theorem sum_map_range {M : Type} [AddCommMonoid M] (n : ℕ) (F : ℕ → M) :
    ((List.range n).map F).sum = ∑ k ∈ Finset.range n, F k := by
  induction n with
  | zero => rfl
  | succ n ih =>
    rw [List.range_succ, List.map_append, List.sum_append, Finset.sum_range_succ, ih]
    simp

theorem compile_slot_basis_true_eq (cb : ℕ → ℕ → List ((ℕ × ℕ) × ℕ)) :
    compile_slot_basis 7 8 concreteModel cb true =
      fix_coefficient_shift 7 8 concreteDesc
        (applyUpdates (slotBasisUpdates cb) ⟨true, List.replicate 8 0⟩) := by
  show fix_coefficient_shift 7 8 concreteDesc
      ((List.range 4).foldl (fun acc s =>
        (List.range 4).foldl
          (slot_basis_block 7 8 concreteModel true 4 rotationsC (3 ^ 4 % 16) cb s) acc)
        ⟨true, List.replicate 8 0⟩) = _
  congr 1
  unfold applyUpdates slotBasisUpdates
  rw [foldl_flatMap]
  refine (foldl_congr_mem _ _ _ (fun acc s _ => ?_) _)
  rw [foldl_flatMap]
  refine (foldl_congr_mem _ _ _ (fun acc2 j _ => ?_) _)
  unfold slot_basis_block
  by_cases hc : cb j ((j + 4 - s) % 4) = []
  · rw [if_pos hc]
    show acc2 = (if cb j ((j + 4 - s) % 4) = [] then ([] : List (poly 7 8 × ℕ × ℕ))
      else _).foldl _ acc2
    rw [if_pos hc]
    rfl
  · rw [if_neg hc]
    show (List.range 2).foldl
        (slot_basis_inner 7 8 concreteDesc true rotationsC (3 ^ 4 % 16)
          (compile_frobenius 7 8 7 2 (cb j ((j + 4 - s) % 4)) czpow dualc) s j) acc2 =
      (if cb j ((j + 4 - s) % 4) = [] then ([] : List (poly 7 8 × ℕ × ℕ))
        else _).foldl _ acc2
    rw [if_neg hc, List.foldl_map]
    refine (foldl_congr_mem _ _ _ (fun acc3 l _ => ?_) _)
    rfl

theorem sum_update_at {M : Type} [AddCommMonoid M] (n k0 : ℕ) (hk : k0 < n)
    (F F2 : ℕ → M) (D : M) (heq : ∀ k, k < n → k ≠ k0 → F2 k = F k)
    (hk0 : F2 k0 = F k0 + D) :
    ∑ k ∈ Finset.range n, F2 k = (∑ k ∈ Finset.range n, F k) + D := by
  have hmem : k0 ∈ Finset.range n := Finset.mem_range.mpr hk
  rw [← Finset.add_sum_erase _ F2 hmem, ← Finset.add_sum_erase _ F hmem, hk0]
  rw [Finset.sum_congr rfl (fun k hkm => heq k
    (Finset.mem_range.mp (Finset.mem_of_mem_erase hkm)) (Finset.ne_of_mem_erase hkm))]
  abel

theorem directSum_add_scaled (T : CompiledLinearTransform 7 8) (c : poly 7 8)
    (rot frob : ℕ)
    (hfound : ((List.range T.coefficients.length).find?
      (fun k => automorphism 8 concreteDesc k == rot * frob % 16)).isSome)
    (x : poly 7 8) :
    directSum (add_scaled_transform 7 8 concreteDesc T c rot frob).coefficients x =
      directSum T.coefficients x +
        polyMul 7 8 c (galoisAct 7 8 (rot * frob % 16) x) := by
  obtain ⟨k0, hk0⟩ := Option.isSome_iff_exists.mp hfound
  have hk0lt : k0 < T.coefficients.length :=
    List.mem_range.mp (List.mem_of_find?_eq_some hk0)
  have hk0pred : automorphism 8 concreteDesc k0 = rot * frob % 16 := by
    have hp := List.find?_some hk0
    simp only [beq_iff_eq] at hp
    exact hp
  unfold add_scaled_transform
  rw [show (2 * 8 : ℕ) = 16 from rfl, hk0]
  show directSum (T.coefficients.set k0 (T.coefficients.getD k0 0 + c)) x = _
  unfold directSum
  rw [List.length_set]
  refine sum_update_at T.coefficients.length k0 hk0lt _ _ _ (fun k hkn hkne => ?_) ?_
  · have hgd : (T.coefficients.set k0 (T.coefficients.getD k0 0 + c)).getD k 0 =
        T.coefficients.getD k 0 := by
      rw [List.getD_eq_getElem?_getD, List.getElem?_set_ne (Ne.symm hkne),
        ← List.getD_eq_getElem?_getD]
    rw [hgd]
  · have hgd : (T.coefficients.set k0 (T.coefficients.getD k0 0 + c)).getD k0 0 =
        T.coefficients.getD k0 0 + c := by
      rw [List.getD_eq_getElem?_getD, List.getElem?_set_self hk0lt]
      rfl
    rw [hgd, polyMul_add_left, hk0pred]

theorem applyUpdates_length (upds : List (poly 7 8 × ℕ × ℕ)) :
    ∀ S : CompiledLinearTransform 7 8,
      (applyUpdates upds S).coefficients.length = S.coefficients.length := by
  induction upds with
  | nil => intro S; rfl
  | cons u rest ih =>
    intro S
    show (applyUpdates rest _).coefficients.length = _
    rw [ih, add_scaled_transform_length]

theorem directSum_applyUpdates (upds : List (poly 7 8 × ℕ × ℕ))
    (hupds : ∀ u ∈ upds, ((List.range 8).find?
      (fun k => automorphism 8 concreteDesc k == u.2.1 * u.2.2 % 16)).isSome) :
    ∀ (T : CompiledLinearTransform 7 8), T.coefficients.length = 8 → ∀ x : poly 7 8,
    directSum (applyUpdates upds T).coefficients x =
      directSum T.coefficients x +
        (upds.map (fun u => polyMul 7 8 u.1 (galoisAct 7 8 (u.2.1 * u.2.2 % 16) x))).sum := by
  induction upds with
  | nil =>
    intro T hT x
    show directSum T.coefficients x = _
    simp
  | cons u rest ih =>
    intro T hT x
    show directSum (applyUpdates rest
      (add_scaled_transform 7 8 concreteDesc T u.1 u.2.1 u.2.2)).coefficients x = _
    have hTadd : (add_scaled_transform 7 8 concreteDesc T u.1 u.2.1 u.2.2).coefficients.length = 8 := by
      rw [add_scaled_transform_length, hT]
    rw [ih (fun v hv => hupds v (List.mem_cons_of_mem u hv)) _ hTadd x]
    have hfound : ((List.range T.coefficients.length).find?
        (fun k => automorphism 8 concreteDesc k == u.2.1 * u.2.2 % 16)).isSome := by
      rw [hT]
      exact hupds u (List.mem_cons_self u rest)
    rw [directSum_add_scaled T u.1 u.2.1 u.2.2 hfound x, List.map_cons, List.sum_cons]
    abel

theorem directSum_replicate_zero (x : poly 7 8) :
    directSum (List.replicate 8 (0 : poly 7 8)) x = 0 := by
  unfold directSum
  have h0 : ∀ k ∈ Finset.range (List.replicate 8 (0 : poly 7 8)).length,
      polyMul 7 8 ((List.replicate 8 (0 : poly 7 8)).getD k 0)
        (galoisAct 7 8 (automorphism 8 concreteDesc k) x) = (0 : poly 7 8) := by
    intro k hk
    rw [Finset.mem_range, List.length_replicate] at hk
    have hgd : (List.replicate 8 (0 : poly 7 8)).getD k 0 = 0 := by
      rw [List.getD_eq_getElem?_getD, List.getElem?_replicate]
      simp [hk]
    rw [hgd, polyMul_zero_left]
  rw [Finset.sum_congr rfl h0]
  simp

theorem slotBasisUpdates_found (cb : ℕ → ℕ → List ((ℕ × ℕ) × ℕ)) :
    ∀ u ∈ slotBasisUpdates cb, ((List.range 8).find?
      (fun k => automorphism 8 concreteDesc k == u.2.1 * u.2.2 % 16)).isSome := by
  have hfind : ∀ s, s < 4 → ∀ l, l < 2 → ((List.range 8).find?
      (fun k => automorphism 8 concreteDesc k ==
        (rotationsC.getD s 1) * 7 ^ l % 16)).isSome := by decide
  intro u hu
  unfold slotBasisUpdates at hu
  rw [List.mem_flatMap] at hu
  obtain ⟨s, hs, hu⟩ := hu
  rw [List.mem_flatMap] at hu
  obtain ⟨j, _, hu⟩ := hu
  rw [List.mem_range] at hs
  by_cases hc : cb j ((j + 4 - s) % 4) = []
  · rw [if_pos hc] at hu
    exact absurd hu (List.not_mem_nil _)
  · rw [if_neg hc] at hu
    rw [List.mem_map] at hu
    obtain ⟨l, hl, hu⟩ := hu
    rw [List.mem_range] at hl
    rw [← hu]
    exact hfind s hs l hl

theorem evaluate_compile_true (cb : ℕ → ℕ → List ((ℕ × ℕ) × ℕ)) (x : poly 7 8) :
    evaluate 7 8 concreteDesc (compile_slot_basis 7 8 concreteModel cb true) x =
      ((slotBasisUpdates cb).map
        (fun u => polyMul 7 8 u.1 (galoisAct 7 8 (u.2.1 * u.2.2 % 16) x))).sum := by
  rw [compile_slot_basis_true_eq]
  have hTlen : (applyUpdates (slotBasisUpdates cb)
      ⟨true, List.replicate 8 0⟩).coefficients.length = 8 := by
    rw [applyUpdates_length]
    exact List.length_replicate 8 0
  have hodd8 : ∀ k, k < 8 → Odd (automorphism 8 concreteDesc k) := by decide
  have heval := evaluate_fix_eq_sum 7 8 concreteDesc (by decide) (by decide)
    (applyUpdates (slotBasisUpdates cb) ⟨true, List.replicate 8 0⟩).g2_included
    (applyUpdates (slotBasisUpdates cb) ⟨true, List.replicate 8 0⟩).coefficients
    4 (by rw [hTlen]; rfl) (fun k hk => hodd8 k (by rw [hTlen] at hk; exact hk))
    (by rw [show (2 * 8 : ℕ) = 16 from rfl]; decide)
    (by rw [show (2 * 8 : ℕ) = 16 from rfl]; decide) x
  refine Eq.trans heval ?_
  show directSum (applyUpdates (slotBasisUpdates cb)
      ⟨true, List.replicate 8 0⟩).coefficients x = _
  rw [directSum_applyUpdates (slotBasisUpdates cb) (slotBasisUpdates_found cb)
    ⟨true, List.replicate 8 0⟩ (List.length_replicate 8 0) x]
  show directSum (List.replicate 8 0) x + _ = _
  rw [directSum_replicate_zero]
  exact zero_add _

set_option maxHeartbeats 4000000 in
theorem cfTab_spec : ∀ r, r < 2 → ∀ t, t < 2 → ∀ l, l < 2 →
    polyMul 7 8 (czpow r) (galoisAct 7 8 (7 ^ l) (dualc t)) = cfTab r t l := by
  decide

set_option maxHeartbeats 4000000 in
theorem rotCf_spec : ∀ j, j < 4 → ∀ r, r < 2 → ∀ t, t < 2 → ∀ l, l < 2 →
    galoisAct 7 8 (rotationsC.getD j 1) (cfTab r t l) = rotatedCf j r t l := by
  decide

set_option maxHeartbeats 4000000 in
theorem basisTab_spec : ∀ i, i < 4 → ∀ r, r < 2 →
    slotBasisElt i r = basisTab i r := by
  decide

theorem expTab_spec : ∀ s, s < 4 → ∀ l, l < 2 →
    rotationsC.getD s 1 * 7 ^ l % 16 = expTab s l := by
  decide

theorem expTab_odd : ∀ s, s < 4 → ∀ l, l < 2 → Odd (expTab s l) := by
  decide

/-- Duality of the coordinate functionals against the slot basis: `kappa c t`
picks out exactly the `(c, t)` coordinate on the basis `b_{i,r}`. -/
theorem kappa_dual : ∀ c, c < 4 → ∀ t, t < 2 → ∀ i, i < 4 → ∀ r, r < 2 →
    kappa c t (slotBasisElt i r) = if c = i ∧ t = r then 1 else 0 := by
  have htab : ∀ c, c < 4 → ∀ t, t < 2 → ∀ i, i < 4 → ∀ r, r < 2 →
      kappa c t (basisTab i r) = if c = i ∧ t = r then 1 else 0 := by decide
  intro c hc t ht i hi r hr
  rw [basisTab_spec i hi r hr]
  exact htab c hc t ht i hi r hr

set_option maxHeartbeats 8000000 in
theorem leaf_mono0 : ∀ s, s < 4 → ∀ r, r < 2 → ∀ t, t < 2 → ∀ m, m < 8 →
    (∑ l ∈ Finset.range 2, ∑ i : Fin 8,
      rotatedCf 0 r t l i • monoNC 7 8 (expTab s l * m + i.val)) =
      kappa ((0 + 4 - s) % 4) t (monoNC 7 8 m) • basisTab 0 r := by
  decide

set_option maxHeartbeats 8000000 in
theorem leaf_mono1 : ∀ s, s < 4 → ∀ r, r < 2 → ∀ t, t < 2 → ∀ m, m < 8 →
    (∑ l ∈ Finset.range 2, ∑ i : Fin 8,
      rotatedCf 1 r t l i • monoNC 7 8 (expTab s l * m + i.val)) =
      kappa ((1 + 4 - s) % 4) t (monoNC 7 8 m) • basisTab 1 r := by
  decide

set_option maxHeartbeats 8000000 in
theorem leaf_mono2 : ∀ s, s < 4 → ∀ r, r < 2 → ∀ t, t < 2 → ∀ m, m < 8 →
    (∑ l ∈ Finset.range 2, ∑ i : Fin 8,
      rotatedCf 2 r t l i • monoNC 7 8 (expTab s l * m + i.val)) =
      kappa ((2 + 4 - s) % 4) t (monoNC 7 8 m) • basisTab 2 r := by
  decide

set_option maxHeartbeats 8000000 in
theorem leaf_mono3 : ∀ s, s < 4 → ∀ r, r < 2 → ∀ t, t < 2 → ∀ m, m < 8 →
    (∑ l ∈ Finset.range 2, ∑ i : Fin 8,
      rotatedCf 3 r t l i • monoNC 7 8 (expTab s l * m + i.val)) =
      kappa ((3 + 4 - s) % 4) t (monoNC 7 8 m) • basisTab 3 r := by
  decide

theorem leaf_mono (j : ℕ) (hj : j < 4) (s : ℕ) (hs : s < 4) (r : ℕ) (hr : r < 2)
    (t : ℕ) (ht : t < 2) (m : ℕ) (hm : m < 8) :
    (∑ l ∈ Finset.range 2, ∑ i : Fin 8,
      rotatedCf j r t l i • monoNC 7 8 (expTab s l * m + i.val)) =
      kappa ((j + 4 - s) % 4) t (monoNC 7 8 m) • basisTab j r := by
  interval_cases j
  · exact leaf_mono0 s hs r hr t ht m hm
  · exact leaf_mono1 s hs r hr t ht m hm
  · exact leaf_mono2 s hs r hr t ht m hm
  · exact leaf_mono3 s hs r hr t ht m hm

theorem kappa_add (c t : ℕ) (x y : poly 7 8) :
    kappa c t (x + y) = kappa c t x + kappa c t y := by
  unfold kappa
  rw [← Finset.sum_add_distrib]
  refine Finset.sum_congr rfl (fun k _ => ?_)
  rw [Pi.add_apply, mul_add]

theorem kappa_smul (c t : ℕ) (a : ZMod 7) (x : poly 7 8) :
    kappa c t (a • x) = a * kappa c t x := by
  unfold kappa
  rw [Finset.mul_sum]
  refine Finset.sum_congr rfl (fun k _ => ?_)
  rw [Pi.smul_apply, smul_eq_mul, mul_left_comm]

theorem kappa_basis (c t : ℕ) (x : poly 7 8) :
    kappa c t x = ∑ m : Fin 8, x m * kappa c t (monoNC 7 8 m.val) := by
  conv_lhs => rw [← sum_basis 7 8 (by decide) x]
  refine Eq.trans (map_sum (AddMonoidHom.mk' (kappa c t) (kappa_add c t))
    (fun m : Fin 8 => x m • monoNC 7 8 m.val) Finset.univ) ?_
  exact Finset.sum_congr rfl (fun m _ => kappa_smul c t (x m) _)

set_option maxHeartbeats 4000000 in
/-- The core coefficient identity of the compilation: the two accumulated
baby-step terms contributed by one sparse entry `(r, t)` of block row `j`,
queried at giant step `s`, act on any `x` exactly as the dense reference
entry does: they project out the `(c, t)` coordinate of `x` (with
`c = (j + 4 - s) % 4` the block column) and emit the `(j, r)` basis
element. -/
theorem leaf_general (j : ℕ) (hj : j < 4) (s : ℕ) (hs : s < 4) (r : ℕ) (hr : r < 2)
    (t : ℕ) (ht : t < 2) (x : poly 7 8) :
    (∑ l ∈ Finset.range 2,
      polyMul 7 8 (rotatedCf j r t l) (galoisAct 7 8 (expTab s l) x)) =
      kappa ((j + 4 - s) % 4) t x • slotBasisElt j r := by
  have step1 : ∀ l : ℕ,
      polyMul 7 8 (rotatedCf j r t l) (galoisAct 7 8 (expTab s l) x) =
      ∑ m : Fin 8, x m • polyMul 7 8 (rotatedCf j r t l)
        (galoisAct 7 8 (expTab s l) (monoNC 7 8 m.val)) := by
    intro l
    conv_lhs => rw [← sum_basis 7 8 (by decide) x]
    rw [galoisAct_sum, polyMul_sum_right]
    refine Finset.sum_congr rfl (fun m _ => ?_)
    rw [galoisAct_smul, polyMul_smul_right]
  rw [Finset.sum_congr rfl (fun l _ => step1 l), Finset.sum_comm]
  rw [kappa_basis, Finset.sum_smul]
  refine Finset.sum_congr rfl (fun m _ => ?_)
  rw [← Finset.smul_sum, mul_smul]
  congr 1
  have hmono : ∀ l ∈ Finset.range 2,
      polyMul 7 8 (rotatedCf j r t l) (galoisAct 7 8 (expTab s l) (monoNC 7 8 m.val)) =
      ∑ i : Fin 8, rotatedCf j r t l i • monoNC 7 8 (expTab s l * m.val + i.val) := by
    intro l hl
    rw [galoisAct_monoNC 7 8 (by decide) (expTab_odd s hs l (Finset.mem_range.mp hl)) m.val,
      polyMul_monoNC_right 7 8 (by decide) (expTab s l * m.val) (rotatedCf j r t l)]
  rw [Finset.sum_congr rfl hmono,
    leaf_mono j hj s hs r hr t ht m.val m.isLt, basisTab_spec j hj r hr]

/-- One block of the accumulation acts on `x` exactly as the dense
reference block does, entry by entry. -/
theorem block_entries (j s : ℕ) (hj : j < 4) (hs : s < 4)
    (E : List ((ℕ × ℕ) × ℕ)) (hE : ∀ ent ∈ E, ent.1.1 < 2 ∧ ent.1.2 < 2)
    (x : poly 7 8) :
    (∑ l ∈ Finset.range 2,
      polyMul 7 8 (galoisAct 7 8 (rotationsC.getD j 1)
        ((compile_frobenius 7 8 7 2 E czpow dualc).getD l 0))
        (galoisAct 7 8 (expTab s l) x)) =
      (E.map (fun ent => ((ent.2 : ZMod 7) * kappa ((j + 4 - s) % 4) ent.1.2 x) •
        slotBasisElt j ent.1.1)).sum := by
  induction E with
  | nil =>
    have hz : ∀ l ∈ Finset.range 2,
        polyMul 7 8 (galoisAct 7 8 (rotationsC.getD j 1)
          ((compile_frobenius 7 8 7 2 ([] : List ((ℕ × ℕ) × ℕ)) czpow dualc).getD l 0))
          (galoisAct 7 8 (expTab s l) x) = 0 := by
      intro l hl
      rw [compile_frobenius_getD 7 8 7 2 [] czpow dualc l (Finset.mem_range.mp hl)]
      show polyMul 7 8 (galoisAct 7 8 (rotationsC.getD j 1) 0) _ = 0
      rw [galoisAct_zero, polyMul_zero_left]
    rw [Finset.sum_congr rfl hz]
    simp
  | cons ent rest ih =>
    obtain ⟨hr, ht⟩ := hE ent (List.mem_cons_self ent rest)
    have hsplit : ∀ l ∈ Finset.range 2,
        (compile_frobenius 7 8 7 2 (ent :: rest) czpow dualc).getD l 0 =
        ((ent.2 : ZMod 7) • polyMul 7 8 (czpow ent.1.1)
          (galoisAct 7 8 (7 ^ l) (dualc ent.1.2))) +
        (compile_frobenius 7 8 7 2 rest czpow dualc).getD l 0 := by
      intro l hl
      rw [compile_frobenius_getD 7 8 7 2 (ent :: rest) czpow dualc l (Finset.mem_range.mp hl),
        compile_frobenius_getD 7 8 7 2 rest czpow dualc l (Finset.mem_range.mp hl),
        List.map_cons, List.sum_cons]
    have hstep : ∀ l ∈ Finset.range 2,
        polyMul 7 8 (galoisAct 7 8 (rotationsC.getD j 1)
          ((compile_frobenius 7 8 7 2 (ent :: rest) czpow dualc).getD l 0))
          (galoisAct 7 8 (expTab s l) x) =
        (ent.2 : ZMod 7) • polyMul 7 8 (rotatedCf j ent.1.1 ent.1.2 l)
          (galoisAct 7 8 (expTab s l) x) +
        polyMul 7 8 (galoisAct 7 8 (rotationsC.getD j 1)
          ((compile_frobenius 7 8 7 2 rest czpow dualc).getD l 0))
          (galoisAct 7 8 (expTab s l) x) := by
      intro l hl
      have hl2 := Finset.mem_range.mp hl
      rw [hsplit l hl, galoisAct_add, polyMul_add_left, galoisAct_smul,
        cfTab_spec ent.1.1 hr ent.1.2 ht l hl2,
        rotCf_spec j hj ent.1.1 hr ent.1.2 ht l hl2, polyMul_smul_left]
    rw [Finset.sum_congr rfl hstep, Finset.sum_add_distrib, ← Finset.smul_sum,
      leaf_general j hj s hs ent.1.1 hr ent.1.2 ht x,
      ih (fun e he => hE e (List.mem_cons_of_mem ent he)),
      List.map_cons, List.sum_cons, smul_smul]

theorem sum_range4_shift {M : Type} [AddCommMonoid M] (a : ℕ) (ha : a < 4)
    (G : ℕ → M) :
    (∑ s ∈ Finset.range 4, G ((a + 4 - s) % 4)) = ∑ c ∈ Finset.range 4, G c := by
  refine Finset.sum_nbij' (fun s => (a + 4 - s) % 4) (fun c => (a + 4 - c) % 4)
    ?_ ?_ ?_ ?_ ?_
  · intro s hsm
    rw [Finset.mem_range] at hsm ⊢
    show (a + 4 - s) % 4 < 4
    omega
  · intro c hcm
    rw [Finset.mem_range] at hcm ⊢
    show (a + 4 - c) % 4 < 4
    omega
  · intro s hsm
    rw [Finset.mem_range] at hsm
    show (a + 4 - (a + 4 - s) % 4) % 4 = s
    omega
  · intro c hcm
    rw [Finset.mem_range] at hcm
    show (a + 4 - (a + 4 - c) % 4) % 4 = c
    omega
  · intro s hsm
    rfl

set_option maxHeartbeats 2000000 in
/-- C2 (corrected): for every per-slot sparse matrix callback whose entries
lie inside the 2×2 blocks, the plaintext evaluation of the transform
compiled with use_g2 = true equals the direct dense-matrix action of the
per-slot matrices on x, for every ring element x.  (The use_g2 = false
variant does not agree with it; see the counterexample.) -/
theorem C2_slot_basis_refinement (cb : ℕ → ℕ → List ((ℕ × ℕ) × ℕ))
    (hcb : ∀ i, i < 4 → ∀ c, c < 4 → ∀ ent ∈ cb i c, ent.1.1 < 2 ∧ ent.1.2 < 2)
    (x : poly 7 8) :
    evaluate 7 8 concreteDesc (compile_slot_basis 7 8 concreteModel cb true) x =
      referenceAction cb x := by
  rw [evaluate_compile_true cb x]
  unfold slotBasisUpdates
  rw [sum_map_flatMap, sum_map_range]
  trans (∑ s ∈ Finset.range 4, ∑ j ∈ Finset.range 4,
    ((cb j ((j + 4 - s) % 4)).map (fun ent =>
      ((ent.2 : ZMod 7) * kappa ((j + 4 - s) % 4) ent.1.2 x) •
        slotBasisElt j ent.1.1)).sum)
  · refine Finset.sum_congr rfl (fun s hsm => ?_)
    rw [sum_map_flatMap, sum_map_range]
    refine Finset.sum_congr rfl (fun j hjm => ?_)
    rw [Finset.mem_range] at hsm hjm
    by_cases hc : cb j ((j + 4 - s) % 4) = []
    · rw [if_pos hc, hc]
      rfl
    · rw [if_neg hc, List.map_map, sum_map_range]
      have hl2 : ∀ l ∈ Finset.range 2,
          ((fun u : poly 7 8 × ℕ × ℕ =>
              polyMul 7 8 u.1 (galoisAct 7 8 (u.2.1 * u.2.2 % 16) x)) ∘
            (fun l => (galoisAct 7 8 (rotationsC.getD j 1)
              ((compile_frobenius 7 8 7 2 (cb j ((j + 4 - s) % 4))
                czpow dualc).getD l 0),
              rotationsC.getD s 1, 7 ^ l))) l =
          polyMul 7 8 (galoisAct 7 8 (rotationsC.getD j 1)
            ((compile_frobenius 7 8 7 2 (cb j ((j + 4 - s) % 4))
              czpow dualc).getD l 0))
            (galoisAct 7 8 (expTab s l) x) := by
        intro l hl
        show polyMul 7 8 _ (galoisAct 7 8 (rotationsC.getD s 1 * 7 ^ l % 16) x) = _
        rw [expTab_spec s hsm l (Finset.mem_range.mp hl)]
      rw [Finset.sum_congr rfl hl2]
      exact block_entries j s hjm hsm (cb j ((j + 4 - s) % 4))
        (hcb j hjm ((j + 4 - s) % 4) (by omega)) x
  · rw [Finset.sum_comm]
    unfold referenceAction
    refine Finset.sum_congr rfl (fun j hjm => ?_)
    have h2 := sum_range4_shift j (Finset.mem_range.mp hjm)
      (fun c => ((cb j c).map (fun ent =>
        ((ent.2 : ZMod 7) * kappa c ent.1.2 x) • slotBasisElt j ent.1.1)).sum)
    exact h2

theorem idCallback_bounds : ∀ i, i < 4 → ∀ c, c < 4 →
    ∀ ent ∈ idCallback i c, ent.1.1 < 2 ∧ ent.1.2 < 2 := by
  intro i _ c _ ent hent
  unfold idCallback at hent
  by_cases h : i = c
  · rw [if_pos h] at hent
    simp only [List.mem_cons, List.not_mem_nil, or_false] at hent
    rcases hent with rfl | rfl <;> decide
  · rw [if_neg h] at hent
    exact absurd hent (List.not_mem_nil ent)

theorem C2_slot_basis_refinement_witness :
    (∀ i, i < 4 → ∀ c, c < 4 → ∀ ent ∈ idCallback i c,
      ent.1.1 < 2 ∧ ent.1.2 < 2) ∧
    evaluate 7 8 concreteDesc (compile_slot_basis 7 8 concreteModel idCallback true)
      (monoNC 7 8 1) = referenceAction idCallback (monoNC 7 8 1) :=
  ⟨idCallback_bounds,
    C2_slot_basis_refinement idCallback idCallback_bounds (monoNC 7 8 1)⟩

set_option maxHeartbeats 16000000 in
/-- C2 counterexample: for the callback whose only entry sits in block
row 3, block column 0, the transform compiled with use_g2 = false
evaluates differently from the one compiled with use_g2 = true, and
differently from the dense reference action (with use_g2 = false the
giant-step grid is halved and the (3,0) block is never queried), so the
claim that both toggles agree with each other and with the reference is
false. -/
theorem C2_counterexample :
    evaluate 7 8 concreteDesc (compile_slot_basis 7 8 concreteModel cb30 false)
        (monoNC 7 8 0) ≠
      evaluate 7 8 concreteDesc (compile_slot_basis 7 8 concreteModel cb30 true)
        (monoNC 7 8 0) ∧
    evaluate 7 8 concreteDesc (compile_slot_basis 7 8 concreteModel cb30 false)
        (monoNC 7 8 0) ≠ referenceAction cb30 (monoNC 7 8 0) := by
  constructor <;> decide
